import Mathlib

/-!
Verification of the stateright repository's two-phase-commit model
(`examples/2pc.rs`) and register actor harness (`src/actor/register.rs`).

The 2PC model is a guarded transition system over a configuration
(a `BTreeSet` of resource-manager ids, here its ascending iteration
order, a strictly sorted list) and a state holding a `BTreeMap` from ids
to statuses (here a sorted association list), the transaction manager's
status, the set of ids the TM has seen prepared, and a monotone set of
broadcast messages.
-/

set_option maxHeartbeats 1000000

namespace Stateright

/-- Status of a resource manager (`enum RmState` in `examples/2pc.rs`). -/
inductive RmState where
  | Working
  | Prepared
  | Committed
  | Aborted
deriving DecidableEq

/-- Status of the transaction manager (`enum TmState` in `examples/2pc.rs`). -/
inductive TmState where
  | Init
  | Committed
  | Aborted
deriving DecidableEq

/-- Broadcast messages (`enum Message<R>` in `examples/2pc.rs`). -/
inductive Message (R : Type) where
  | Prepared (rm : R)
  | Commit
  | Abort
deriving DecidableEq

/-- `BTreeMap::get`: look a key up in an association list. -/
def mapGet {R V : Type} [DecidableEq R] (m : List (R × V)) (r : R) : Option V :=
  match m with
  | [] => none
  | (k, v) :: t => if r = k then some v else mapGet t r

/-- `BTreeMap::insert`: insert or replace a binding, keeping keys sorted. -/
def mapInsert {R V : Type} [LinearOrder R] (m : List (R × V)) (r : R) (v : V) :
    List (R × V) :=
  match m with
  | [] => [(r, v)]
  | (k, w) :: t =>
    if r = k then (r, v) :: t
    else if r < k then (r, v) :: (k, w) :: t
    else (k, w) :: mapInsert t r v

/-- The key list of an association list. -/
def mapKeys {R V : Type} (m : List (R × V)) : List R := m.map Prod.fst

/-- The system configuration (`struct TwoPhaseSys<R>`): a `BTreeSet` of RM
ids, represented by its ascending iteration order, a strictly sorted list. -/
structure TwoPhaseSys (R : Type) where
  rms : List R

/-- The protocol state (`struct TwoPhaseState<R>`). -/
@[ext]
structure TwoPhaseState (R : Type) where
  rm_state : List (R × RmState)
  tm_state : TmState
  tm_prepared : Finset R
  msgs : Finset (Message R)
deriving DecidableEq

variable {R : Type} [LinearOrder R]

/-- `TwoPhaseSys::tm_rcv_prepared`: if the TM is in `Init` and a
`Prepared(rm)` message is present, record `rm` as prepared. -/
def TwoPhaseSys.tm_rcv_prepared (_sys : TwoPhaseSys R) (rm : R)
    (state : TwoPhaseState R) : List (String × TwoPhaseState R) :=
  if state.tm_state = TmState.Init ∧ Message.Prepared rm ∈ state.msgs then
    [("TM got prepared msg", { state with tm_prepared := insert rm state.tm_prepared })]
  else []

/-- `TwoPhaseSys::tm_commit`: if the TM is in `Init` and every configured RM
is prepared, commit and broadcast `Commit`. -/
def TwoPhaseSys.tm_commit (sys : TwoPhaseSys R)
    (state : TwoPhaseState R) : List (String × TwoPhaseState R) :=
  if state.tm_state = TmState.Init ∧ state.tm_prepared = sys.rms.toFinset then
    [("TM was able to commit and has informed RMs",
      { state with tm_state := TmState.Committed,
                   msgs := insert Message.Commit state.msgs })]
  else []

/-- `TwoPhaseSys::tm_abort`: if the TM is in `Init`, abort and broadcast `Abort`. -/
def TwoPhaseSys.tm_abort (_sys : TwoPhaseSys R)
    (state : TwoPhaseState R) : List (String × TwoPhaseState R) :=
  if state.tm_state = TmState.Init then
    [("TM chose to abort",
      { state with tm_state := TmState.Aborted,
                   msgs := insert Message.Abort state.msgs })]
  else []

/-- `TwoPhaseSys::rm_prepare`: a `Working` RM moves to `Prepared` and
broadcasts `Prepared(rm)`. -/
def TwoPhaseSys.rm_prepare (_sys : TwoPhaseSys R) (rm : R)
    (state : TwoPhaseState R) : List (String × TwoPhaseState R) :=
  if mapGet state.rm_state rm = some RmState.Working then
    [("RM is preparing",
      { state with rm_state := mapInsert state.rm_state rm RmState.Prepared,
                   msgs := insert (Message.Prepared rm) state.msgs })]
  else []

/-- `TwoPhaseSys::rm_choose_to_abort`: a `Working` RM moves to `Aborted`. -/
def TwoPhaseSys.rm_choose_to_abort (_sys : TwoPhaseSys R) (rm : R)
    (state : TwoPhaseState R) : List (String × TwoPhaseState R) :=
  if mapGet state.rm_state rm = some RmState.Working then
    [("RM is choosing to abort",
      { state with rm_state := mapInsert state.rm_state rm RmState.Aborted })]
  else []

/-- `TwoPhaseSys::rm_rcv_commit_msg`: if `Commit` was broadcast, the RM
moves to `Committed`. -/
def TwoPhaseSys.rm_rcv_commit_msg (_sys : TwoPhaseSys R) (rm : R)
    (state : TwoPhaseState R) : List (String × TwoPhaseState R) :=
  if Message.Commit ∈ state.msgs then
    [("RM is being told to commit",
      { state with rm_state := mapInsert state.rm_state rm RmState.Committed })]
  else []

/-- `TwoPhaseSys::rm_rcv_abort_msg`: if `Abort` was broadcast, the RM
moves to `Aborted`. -/
def TwoPhaseSys.rm_rcv_abort_msg (_sys : TwoPhaseSys R) (rm : R)
    (state : TwoPhaseState R) : List (String × TwoPhaseState R) :=
  if Message.Abort ∈ state.msgs then
    [("RM is being told to abort",
      { state with rm_state := mapInsert state.rm_state rm RmState.Aborted })]
  else []

/-- `StateMachine::init` for `TwoPhaseSys`: every configured RM starts
`Working`, the TM in `Init`, no prepared ids and no messages. -/
def TwoPhaseSys.init (sys : TwoPhaseSys R) : List (String × TwoPhaseState R) :=
  [("init",
    { rm_state := sys.rms.map (fun rm => (rm, RmState.Working)),
      tm_state := TmState.Init,
      tm_prepared := ∅,
      msgs := ∅ })]

/-- `StateMachine::next` for `TwoPhaseSys`: fire every enabled rule once,
TM rules first, then the five per-RM rules for each configured RM in
ascending id order. -/
def TwoPhaseSys.next (sys : TwoPhaseSys R) (state : TwoPhaseState R) :
    List (String × TwoPhaseState R) :=
  sys.tm_commit state ++ sys.tm_abort state ++
  sys.rms.flatMap (fun rm =>
    sys.tm_rcv_prepared rm state ++ sys.rm_prepare rm state ++
    sys.rm_choose_to_abort rm state ++ sys.rm_rcv_commit_msg rm state ++
    sys.rm_rcv_abort_msg rm state)

/-- `is_consistent`: no two configured RMs simultaneously `Aborted` and
`Committed`. -/
def is_consistent (sys : TwoPhaseSys R) (state : TwoPhaseState R) : Bool :=
  ! sys.rms.any (fun rm1 =>
      sys.rms.any (fun rm2 =>
        decide (mapGet state.rm_state rm1 = some RmState.Aborted) &&
        decide (mapGet state.rm_state rm2 = some RmState.Committed)))

/-- The single initial state produced by `init`. -/
def TwoPhaseSys.initState (sys : TwoPhaseSys R) : TwoPhaseState R :=
  { rm_state := sys.rms.map (fun rm => (rm, RmState.Working)),
    tm_state := TmState.Init,
    tm_prepared := ∅,
    msgs := ∅ }

/-- One transition of the system: some labeled successor in `next`. -/
def Step (sys : TwoPhaseSys R) (s s' : TwoPhaseState R) : Prop :=
  ∃ l, (l, s') ∈ sys.next s

/-- Reachability from the initial state along `next`. -/
def Reachable (sys : TwoPhaseSys R) (s : TwoPhaseState R) : Prop :=
  Relation.ReflTransGen (Step sys) sys.initState s

/-- Sanity of one broadcast message with respect to the rest of the state:
a `Prepared(rm)` message names a configured RM that has left `Working`, and
`Commit`/`Abort` are broadcast exactly by the TM resolution they record. -/
def msgOK (sys : TwoPhaseSys R) (s : TwoPhaseState R) : Message R → Prop
  | Message.Prepared rm => rm ∈ sys.rms ∧ mapGet s.rm_state rm ≠ some RmState.Working
  | Message.Commit => s.tm_state = TmState.Committed
  | Message.Abort => s.tm_state = TmState.Aborted

instance msgOK.instDecidable (sys : TwoPhaseSys R) (s : TwoPhaseState R)
    (m : Message R) : Decidable (msgOK sys s m) := by
  cases m <;> simp only [msgOK] <;> infer_instance

/-- The inductive invariant of the two-phase-commit system: it holds in the
initial state, is preserved by every rule, and pins down exactly the
reachable states. -/
def Inv (sys : TwoPhaseSys R) (s : TwoPhaseState R) : Prop :=
  mapKeys s.rm_state = sys.rms ∧
  (∀ rm ∈ s.tm_prepared, rm ∈ sys.rms ∧ Message.Prepared rm ∈ s.msgs) ∧
  (∀ m ∈ s.msgs, msgOK sys s m) ∧
  (s.tm_state = TmState.Committed →
    Message.Commit ∈ s.msgs ∧ s.tm_prepared = sys.rms.toFinset) ∧
  (s.tm_state = TmState.Aborted → Message.Abort ∈ s.msgs) ∧
  (∀ rm ∈ sys.rms,
    (mapGet s.rm_state rm = some RmState.Prepared → Message.Prepared rm ∈ s.msgs) ∧
    (mapGet s.rm_state rm = some RmState.Committed → Message.Commit ∈ s.msgs) ∧
    (mapGet s.rm_state rm = some RmState.Aborted → Message.Prepared rm ∈ s.msgs →
      Message.Abort ∈ s.msgs))

instance Inv.instDecidable (sys : TwoPhaseSys R) (s : TwoPhaseState R) :
    Decidable (Inv sys s) := by
  unfold Inv
  infer_instance

/-- One-step forward moves of an RM status along its lifecycle
`Working → Prepared → Committed | Aborted` or `Working → Aborted`
(`Committed` and `Aborted` terminal). -/
inductive RmForward : RmState → RmState → Prop
  | refl (v : RmState) : RmForward v v
  | work_prep : RmForward RmState.Working RmState.Prepared
  | work_abort : RmForward RmState.Working RmState.Aborted
  | prep_commit : RmForward RmState.Prepared RmState.Committed
  | prep_abort : RmForward RmState.Prepared RmState.Aborted

/-- One-step forward moves of the TM status along its lifecycle
`Init → Committed | Aborted` (both terminal). -/
inductive TmForward : TmState → TmState → Prop
  | refl (v : TmState) : TmForward v v
  | init_commit : TmForward TmState.Init TmState.Committed
  | init_abort : TmForward TmState.Init TmState.Aborted

/-- How far an RM status is along its lifecycle. -/
def rmRank : RmState → Nat
  | RmState.Working => 0
  | RmState.Prepared => 1
  | RmState.Committed => 2
  | RmState.Aborted => 2

/-- How far the TM status is along its lifecycle. -/
def tmRank : TmState → Nat
  | TmState.Init => 0
  | TmState.Committed => 1
  | TmState.Aborted => 1

/-- A measure that strictly decreases from every state to some predecessor. -/
def rank (s : TwoPhaseState R) : Nat :=
  (s.rm_state.map (fun p => rmRank p.2)).sum + tmRank s.tm_state +
    s.tm_prepared.card + s.msgs.card

/-- The configuration of the regression test `can_model_2pc`: RM ids 1..5. -/
def sys5 : TwoPhaseSys Nat := ⟨[1, 2, 3, 4, 5]⟩

/-- Summary of one RM in a state: its status, whether its `Prepared`
message has been broadcast, and whether the TM has recorded it prepared. -/
abbrev Combo := RmState × Bool × Bool

/-- The per-RM summaries possible in a reachable state, by TM status,
listed in increasing encoding order. -/
def combosFor : TmState → List Combo
  | TmState.Init =>
      [(RmState.Working, false, false), (RmState.Prepared, true, false),
       (RmState.Prepared, true, true), (RmState.Aborted, false, false)]
  | TmState.Aborted =>
      [(RmState.Working, false, false), (RmState.Prepared, true, false),
       (RmState.Prepared, true, true), (RmState.Aborted, false, false),
       (RmState.Aborted, true, false), (RmState.Aborted, true, true)]
  | TmState.Committed =>
      [(RmState.Prepared, true, true), (RmState.Committed, true, true)]

/-- Build the unique state with the given TM status and per-RM summaries. -/
def mkState (tm : TmState) (c1 c2 c3 c4 c5 : Combo) : TwoPhaseState Nat :=
  { rm_state := [(1, c1.1), (2, c2.1), (3, c3.1), (4, c4.1), (5, c5.1)],
    tm_state := tm,
    tm_prepared :=
      (if c1.2.2 then ({1} : Finset Nat) else ∅) ∪
      (if c2.2.2 then {2} else ∅) ∪ (if c3.2.2 then {3} else ∅) ∪
      (if c4.2.2 then {4} else ∅) ∪ (if c5.2.2 then {5} else ∅),
    msgs :=
      (if c1.2.1 then ({Message.Prepared 1} : Finset (Message Nat)) else ∅) ∪
      (if c2.2.1 then {Message.Prepared 2} else ∅) ∪
      (if c3.2.1 then {Message.Prepared 3} else ∅) ∪
      (if c4.2.1 then {Message.Prepared 4} else ∅) ∪
      (if c5.2.1 then {Message.Prepared 5} else ∅) ∪
      (if tm = TmState.Committed then {Message.Commit} else ∅) ∪
      (if tm = TmState.Aborted then {Message.Abort} else ∅) }

/-- All states with the given TM status and the first four RM summaries
fixed. -/
def enumC5 (tm : TmState) (c1 c2 c3 c4 : Combo) : List (TwoPhaseState Nat) :=
  (combosFor tm).map fun c5 => mkState tm c1 c2 c3 c4 c5

/-- All states with the given TM status and the first three RM summaries
fixed. -/
def enumC4 (tm : TmState) (c1 c2 c3 : Combo) : List (TwoPhaseState Nat) :=
  (combosFor tm).flatMap fun c4 => enumC5 tm c1 c2 c3 c4

/-- All states with the given TM status and the first two RM summaries
fixed. -/
def enumC3 (tm : TmState) (c1 c2 : Combo) : List (TwoPhaseState Nat) :=
  (combosFor tm).flatMap fun c3 => enumC4 tm c1 c2 c3

/-- All states with the given TM status and the first RM summary fixed. -/
def enumC2 (tm : TmState) (c1 : Combo) : List (TwoPhaseState Nat) :=
  (combosFor tm).flatMap fun c2 => enumC3 tm c1 c2

/-- All states with the given TM status, lexicographically by RM summary. -/
def branchEnum (tm : TmState) : List (TwoPhaseState Nat) :=
  (combosFor tm).flatMap fun c1 => enumC2 tm c1

/-- The full reachable state space of the five-RM system. -/
def enum2pc : List (TwoPhaseState Nat) :=
  branchEnum TmState.Init ++ branchEnum TmState.Aborted ++
    branchEnum TmState.Committed

/-- Modelled from the spec: the rule table of the protocol (§4.2), one
disjunct per enabled rule instance — RM prepares, RM chooses to abort, TM
receives prepared, TM commits, TM aborts, RM receives commit, RM receives
abort — each with its guard and effect as the spec states them. -/
def SpecStep (sys : TwoPhaseSys R) (s s' : TwoPhaseState R) : Prop :=
  (∃ rm ∈ sys.rms, mapGet s.rm_state rm = some RmState.Working ∧
    s' = { s with rm_state := mapInsert s.rm_state rm RmState.Prepared,
                  msgs := insert (Message.Prepared rm) s.msgs }) ∨
  (∃ rm ∈ sys.rms, mapGet s.rm_state rm = some RmState.Working ∧
    s' = { s with rm_state := mapInsert s.rm_state rm RmState.Aborted }) ∨
  (∃ rm ∈ sys.rms, s.tm_state = TmState.Init ∧ Message.Prepared rm ∈ s.msgs ∧
    s' = { s with tm_prepared := insert rm s.tm_prepared }) ∨
  (s.tm_state = TmState.Init ∧ s.tm_prepared = sys.rms.toFinset ∧
    s' = { s with tm_state := TmState.Committed,
                  msgs := insert Message.Commit s.msgs }) ∨
  (s.tm_state = TmState.Init ∧
    s' = { s with tm_state := TmState.Aborted,
                  msgs := insert Message.Abort s.msgs }) ∨
  (∃ rm ∈ sys.rms, Message.Commit ∈ s.msgs ∧
    s' = { s with rm_state := mapInsert s.rm_state rm RmState.Committed }) ∨
  (∃ rm ∈ sys.rms, Message.Abort ∈ s.msgs ∧
    s' = { s with rm_state := mapInsert s.rm_state rm RmState.Aborted })

/-- Modelled from the spec: an input consumed by `advance` — delivery of a
message from a source actor (the actor runtime itself is outside `src/`). -/
inductive ActorInput (Id Msg : Type) where
  | Deliver (src : Id) (msg : Msg)

/-- Modelled from the spec: the result of an actor operation — a diagnostic
action label, the new state, and the outputs emitted in order via
`outputs.send(dst, msg)` (the actor runtime is outside `src/`). -/
structure ActorResult (Id Msg St : Type) where
  action : String
  state : St
  outputs : List (Id × Msg)

/-- Modelled from the spec: the `start`/`advance` capability (§4.3) every
participant supports; a server configuration is represented by its two
operations. -/
structure ActorDef (Id Msg St : Type) where
  start : ActorResult Id Msg St
  advance : St → ActorInput Id Msg → Option (ActorResult Id Msg St)

/-- Modelled from the spec: `ActorResult::start(state, f)` builds a result
holding the given state and the outputs the closure sends into an initially
empty output vector, under a fixed start label. -/
def ActorResult.mkStart {Id Msg St : Type} (state : St)
    (send : List (Id × Msg) → List (Id × Msg)) : ActorResult Id Msg St :=
  { action := "start", state := state, outputs := send [] }

/-- `RegisterMsg`: the register interface messages. -/
inductive RegisterMsg (Value SMsg : Type) where
  | Put (value : Value)
  | Get
  | Respond (value : Value)
  | Internal (m : SMsg)
deriving DecidableEq

/-- `RegisterState`: composite state of the register wrapper. -/
inductive RegisterState (SState : Type) where
  | Client
  | Server (s : SState)
deriving DecidableEq

/-- `RegisterCfg`: wrapper configuration — a synthetic client probe or a
wrapped server implementation. -/
inductive RegisterCfg (Id Value SMsg SState : Type) where
  | Client (server_ids : List Id) (desired_value : Value)
  | Server (server_cfg : ActorDef Id (RegisterMsg Value SMsg) SState)

/-- `RegisterCfg::start`: the Client emits `Put(v)` then `Get` to each
configured server in order and takes the inert Client state; the Server
delegates to the wrapped configuration, re-tagging its state. -/
def RegisterCfg.start {Id Value SMsg SState : Type} :
    RegisterCfg Id Value SMsg SState →
      ActorResult Id (RegisterMsg Value SMsg) (RegisterState SState)
  | RegisterCfg.Client server_ids desired_value =>
      ActorResult.mkStart RegisterState.Client (fun outputs =>
        server_ids.foldl (fun outs server_id =>
          outs ++ [(server_id, RegisterMsg.Put desired_value),
                   (server_id, RegisterMsg.Get)]) outputs)
  | RegisterCfg.Server server_cfg =>
      { action := server_cfg.start.action,
        state := RegisterState.Server server_cfg.start.state,
        outputs := server_cfg.start.outputs }

/-- `RegisterCfg::advance`: a Server-tagged state advances by delegating to
the wrapped configuration, re-tagging the result; everything else yields no
transition. -/
def RegisterCfg.advance {Id Value SMsg SState : Type}
    (cfg : RegisterCfg Id Value SMsg SState) (state : RegisterState SState)
    (input : ActorInput Id (RegisterMsg Value SMsg)) :
    Option (ActorResult Id (RegisterMsg Value SMsg) (RegisterState SState)) :=
  match cfg, state with
  | RegisterCfg.Server server_cfg, RegisterState.Server server_state =>
    (match server_cfg.advance server_state input with
      | some server_result =>
          some { action := server_result.action,
                 state := RegisterState.Server server_result.state,
                 outputs := server_result.outputs }
      | none => none)
  | _, _ => none

/-- Modelled from the spec: an envelope of the network snapshot; it carries
at least the message payload `.msg` (routing metadata is not consumed). -/
structure Envelope (Msg : Type) where
  msg : Msg

/-- Modelled from the spec: a snapshot of the actor system exposing the
iterable collection of message envelopes of its network. -/
structure ActorSystemSnapshot (Msg St : Type) where
  network : List (Envelope Msg)

/-- `Vec::dedup`: remove consecutive duplicate elements, keeping the first
of each run. -/
def dedupAdj {α : Type} [DecidableEq α] : List α → List α
  | [] => []
  | [a] => [a]
  | a :: b :: t => if a = b then dedupAdj (b :: t) else a :: dedupAdj (b :: t)

/-- `response_values`: the values carried by `Respond` envelopes of a
snapshot, sorted ascending (`Vec::sort` modelled by insertion sort) with
consecutive duplicates removed (`Vec::dedup`). -/
def response_values {Value SMsg SState : Type} [LinearOrder Value]
    (state : ActorSystemSnapshot (RegisterMsg Value SMsg) (RegisterState SState)) :
    List Value :=
  let values : List Value := state.network.filterMap (fun env =>
    match env.msg with
    | RegisterMsg.Respond value => some value
    | _ => none)
  dedupAdj (values.insertionSort (· ≤ ·))

/-! ### Theorems -/

/-! ### Association-map lemmas -/

theorem mapGet_mapInsert_self {V : Type} (m : List (R × V)) (r : R) (v : V) :
    mapGet (mapInsert m r v) r = some v := by
  induction m with
  | nil => simp [mapInsert, mapGet]
  | cons p t ih =>
    obtain ⟨k, w⟩ := p
    by_cases h : r = k
    · simp [mapInsert, h, mapGet]
    · by_cases h2 : r < k
      · simp [mapInsert, h, h2, mapGet]
      · simp [mapInsert, h, h2, mapGet, ih]

theorem mapGet_mapInsert_ne {V : Type} (m : List (R × V)) {r r' : R} (v : V)
    (h : r' ≠ r) : mapGet (mapInsert m r v) r' = mapGet m r' := by
  induction m with
  | nil => simp [mapInsert, mapGet, h]
  | cons p t ih =>
    obtain ⟨k, w⟩ := p
    by_cases hk : r = k
    · subst hk
      simp [mapInsert, mapGet, h]
    · by_cases h2 : r < k
      · simp [mapInsert, hk, h2, mapGet, h]
      · by_cases h3 : r' = k <;> simp [mapInsert, hk, h2, mapGet, h3, ih]

theorem mapKeys_mapInsert_of_mem {V : Type} {m : List (R × V)} {r : R} (v : V) :
    (mapKeys m).Pairwise (· < ·) → r ∈ mapKeys m →
    mapKeys (mapInsert m r v) = mapKeys m := by
  induction m with
  | nil => intro _ hr; simp [mapKeys] at hr
  | cons p t ih =>
    intro hs hr
    obtain ⟨k, w⟩ := p
    simp only [mapKeys, List.map_cons, List.pairwise_cons] at hs hr
    rcases List.mem_cons.1 hr with h1 | h1
    · simp [mapInsert, h1, mapKeys]
    · have hkr : k < r := hs.1 r h1
      have hne : ¬ r = k := ne_of_gt hkr
      have hnlt : ¬ r < k := not_lt_of_gt hkr
      simp only [mapInsert, if_neg hne, if_neg hnlt]
      simp only [mapKeys, List.map_cons] at ih ⊢
      rw [ih hs.2 h1]

theorem mapGet_eq_none_iff {V : Type} (m : List (R × V)) (r : R) :
    mapGet m r = none ↔ r ∉ mapKeys m := by
  induction m with
  | nil => simp [mapGet, mapKeys]
  | cons p t ih =>
    obtain ⟨k, w⟩ := p
    by_cases h : r = k <;> simp [mapGet, mapKeys, h, ih]

theorem mapGet_isSome_of_mem {V : Type} {m : List (R × V)} {r : R}
    (hr : r ∈ mapKeys m) : ∃ v, mapGet m r = some v := by
  rcases h : mapGet m r with _ | v
  · exact absurd ((mapGet_eq_none_iff m r).1 h) (not_not_intro hr)
  · exact ⟨v, rfl⟩

theorem mem_of_mapGet_eq_some {V : Type} {m : List (R × V)} {r : R} {v : V}
    (h : mapGet m r = some v) : r ∈ mapKeys m := by
  by_contra hmem
  rw [← mapGet_eq_none_iff m r] at hmem
  rw [hmem] at h
  exact Option.noConfusion h

theorem mapInsert_eq_self {V : Type} {m : List (R × V)} {r : R} {v : V} :
    (mapKeys m).Pairwise (· < ·) → mapGet m r = some v →
    mapInsert m r v = m := by
  induction m with
  | nil => intro _ h; simp [mapGet] at h
  | cons p t ih =>
    intro hs h
    obtain ⟨k, w⟩ := p
    simp only [mapKeys, List.map_cons, List.pairwise_cons] at hs
    by_cases hk : r = k
    · subst hk
      have hv : w = v := by simpa [mapGet] using h
      simp [mapInsert, hv]
    · simp only [mapGet, if_neg hk] at h
      have hrt : r ∈ mapKeys t := mem_of_mapGet_eq_some h
      have hkr : k < r := hs.1 r hrt
      have hnlt : ¬ r < k := not_lt_of_gt hkr
      simp [mapInsert, hk, hnlt, ih hs.2 h]

theorem mapInsert_mapInsert {V : Type} (m : List (R × V)) (r : R) (v w : V) :
    mapInsert (mapInsert m r v) r w = mapInsert m r w := by
  induction m with
  | nil => simp [mapInsert]
  | cons p t ih =>
    obtain ⟨k, u⟩ := p
    by_cases hk : r = k
    · simp [mapInsert, hk]
    · by_cases h2 : r < k
      · simp [mapInsert, hk, h2]
      · simp [mapInsert, hk, h2, ih]

theorem mapGet_map_const {V : Type} (l : List R) (c : V) (r : R) :
    mapGet (l.map (fun x => (x, c))) r = if r ∈ l then some c else none := by
  induction l with
  | nil => simp [mapGet]
  | cons x t ih =>
    by_cases h : r = x <;> simp [mapGet, h, ih]

theorem mapGet_of_mem {V : Type} {m : List (R × V)} {p : R × V} :
    (mapKeys m).Pairwise (· < ·) → p ∈ m → mapGet m p.1 = some p.2 := by
  induction m with
  | nil => intro _ h; simp at h
  | cons q t ih =>
    intro hs h
    obtain ⟨k, w⟩ := q
    simp only [mapKeys, List.map_cons, List.pairwise_cons] at hs
    rcases List.mem_cons.1 h with h1 | h1
    · subst h1
      simp [mapGet]
    · have hkt : p.1 ∈ mapKeys t := by
        simp only [mapKeys, List.mem_map]
        exact ⟨p, h1, rfl⟩
      have : k < p.1 := hs.1 p.1 hkt
      simp [mapGet, ne_of_gt this, ih hs.2 h1]

omit [LinearOrder R] in
theorem eq_map_const_of_forall {V : Type} {m : List (R × V)} {c : V} :
    (∀ p ∈ m, p.2 = c) → m = (mapKeys m).map (fun r => (r, c)) := by
  induction m with
  | nil => intro _; simp [mapKeys]
  | cons p t ih =>
    intro h
    obtain ⟨k, w⟩ := p
    have hw : w = c := h (k, w) (List.mem_cons_self _ _)
    have ht := ih (fun q hq => h q (List.mem_cons_of_mem _ hq))
    simp only [mapKeys, List.map_cons] at ht ⊢
    rw [hw, ← ht]

theorem sum_map_mapInsert {V : Type} (f : V → Nat) {m : List (R × V)} {r : R} {w : V}
    (v : V) :
    (mapKeys m).Pairwise (· < ·) → mapGet m r = some w →
    ((mapInsert m r v).map (fun p => f p.2)).sum + f w
      = (m.map (fun p => f p.2)).sum + f v := by
  induction m with
  | nil => intro _ h; simp [mapGet] at h
  | cons p t ih =>
    intro hs h
    obtain ⟨k, u⟩ := p
    simp only [mapKeys, List.map_cons, List.pairwise_cons] at hs
    by_cases hk : r = k
    · subst hk
      have hu : u = w := by simpa [mapGet] using h
      subst hu
      simp [mapInsert]
      omega
    · simp only [mapGet, if_neg hk] at h
      have hrt : r ∈ mapKeys t := mem_of_mapGet_eq_some h
      have hkr : k < r := hs.1 r hrt
      have hnlt : ¬ r < k := not_lt_of_gt hkr
      have := ih hs.2 h
      simp only [mapInsert, if_neg hk, if_neg hnlt, List.map_cons, List.sum_cons]
      omega

/-! ### Characterization of single steps -/

theorem mem_guarded {α : Type} (g : Prop) [Decidable g] (lab : String) (eff : α)
    (l : String) (s : α) :
    ((l, s) ∈ (if g then [(lab, eff)] else [])) ↔ l = lab ∧ g ∧ s = eff := by
  split_ifs with h
  · simp [Prod.ext_iff, h]
  · simp [h]

/-- A step of `next` is exactly one enabled rule instance: `tm_commit`,
`tm_abort`, or one of the five per-RM rules for a configured RM. -/
theorem step_iff (sys : TwoPhaseSys R) (s s' : TwoPhaseState R) :
    Step sys s s' ↔
      (s.tm_state = TmState.Init ∧ s.tm_prepared = sys.rms.toFinset ∧
        s' = { s with tm_state := TmState.Committed,
                      msgs := insert Message.Commit s.msgs }) ∨
      (s.tm_state = TmState.Init ∧
        s' = { s with tm_state := TmState.Aborted,
                      msgs := insert Message.Abort s.msgs }) ∨
      (∃ rm ∈ sys.rms,
        (s.tm_state = TmState.Init ∧ Message.Prepared rm ∈ s.msgs ∧
          s' = { s with tm_prepared := insert rm s.tm_prepared }) ∨
        (mapGet s.rm_state rm = some RmState.Working ∧
          s' = { s with rm_state := mapInsert s.rm_state rm RmState.Prepared,
                        msgs := insert (Message.Prepared rm) s.msgs }) ∨
        (mapGet s.rm_state rm = some RmState.Working ∧
          s' = { s with rm_state := mapInsert s.rm_state rm RmState.Aborted }) ∨
        (Message.Commit ∈ s.msgs ∧
          s' = { s with rm_state := mapInsert s.rm_state rm RmState.Committed }) ∨
        (Message.Abort ∈ s.msgs ∧
          s' = { s with rm_state := mapInsert s.rm_state rm RmState.Aborted })) := by
  constructor
  · rintro ⟨l, hl⟩
    simp only [TwoPhaseSys.next, List.mem_append] at hl
    rcases hl with (hl | hl) | hl
    · rw [TwoPhaseSys.tm_commit, mem_guarded] at hl
      exact Or.inl ⟨hl.2.1.1, hl.2.1.2, hl.2.2⟩
    · rw [TwoPhaseSys.tm_abort, mem_guarded] at hl
      exact Or.inr (Or.inl ⟨hl.2.1, hl.2.2⟩)
    · rcases List.mem_flatMap.1 hl with ⟨rm, hrm, hmem⟩
      simp only [List.mem_append] at hmem
      refine Or.inr (Or.inr ⟨rm, hrm, ?_⟩)
      rcases hmem with (((h | h) | h) | h) | h
      · rw [TwoPhaseSys.tm_rcv_prepared, mem_guarded] at h
        exact Or.inl ⟨h.2.1.1, h.2.1.2, h.2.2⟩
      · rw [TwoPhaseSys.rm_prepare, mem_guarded] at h
        exact Or.inr (Or.inl ⟨h.2.1, h.2.2⟩)
      · rw [TwoPhaseSys.rm_choose_to_abort, mem_guarded] at h
        exact Or.inr (Or.inr (Or.inl ⟨h.2.1, h.2.2⟩))
      · rw [TwoPhaseSys.rm_rcv_commit_msg, mem_guarded] at h
        exact Or.inr (Or.inr (Or.inr (Or.inl ⟨h.2.1, h.2.2⟩)))
      · rw [TwoPhaseSys.rm_rcv_abort_msg, mem_guarded] at h
        exact Or.inr (Or.inr (Or.inr (Or.inr ⟨h.2.1, h.2.2⟩)))
  · intro h
    rcases h with ⟨h1, h2, h3⟩ | ⟨h1, h2⟩ | ⟨rm, hrm, hcase⟩
    · exact ⟨"TM was able to commit and has informed RMs",
        List.mem_append.2 (Or.inl (List.mem_append.2 (Or.inl
          ((mem_guarded _ _ _ _ _).2 ⟨rfl, ⟨h1, h2⟩, h3⟩))))⟩
    · exact ⟨"TM chose to abort",
        List.mem_append.2 (Or.inl (List.mem_append.2 (Or.inr
          ((mem_guarded _ _ _ _ _).2 ⟨rfl, h1, h2⟩))))⟩
    · have flat : ∀ x ∈ sys.tm_rcv_prepared rm s ++ sys.rm_prepare rm s ++
          sys.rm_choose_to_abort rm s ++ sys.rm_rcv_commit_msg rm s ++
          sys.rm_rcv_abort_msg rm s, x ∈ sys.next s := by
        intro x hx
        simp only [TwoPhaseSys.next, List.mem_append]
        exact Or.inr (List.mem_flatMap.2 ⟨rm, hrm, by simpa [List.mem_append] using hx⟩)
      rcases hcase with ⟨h1, h2, h3⟩ | ⟨h1, h2⟩ | ⟨h1, h2⟩ | ⟨h1, h2⟩ | ⟨h1, h2⟩
      · refine ⟨"TM got prepared msg", flat _ ?_⟩
        simp only [List.mem_append]
        exact Or.inl (Or.inl (Or.inl (Or.inl
          ((mem_guarded _ _ _ _ _).2 ⟨rfl, ⟨h1, h2⟩, h3⟩))))
      · refine ⟨"RM is preparing", flat _ ?_⟩
        simp only [List.mem_append]
        exact Or.inl (Or.inl (Or.inl (Or.inr
          ((mem_guarded _ _ _ _ _).2 ⟨rfl, h1, h2⟩))))
      · refine ⟨"RM is choosing to abort", flat _ ?_⟩
        simp only [List.mem_append]
        exact Or.inl (Or.inl (Or.inr
          ((mem_guarded _ _ _ _ _).2 ⟨rfl, h1, h2⟩)))
      · refine ⟨"RM is being told to commit", flat _ ?_⟩
        simp only [List.mem_append]
        exact Or.inl (Or.inr ((mem_guarded _ _ _ _ _).2 ⟨rfl, h1, h2⟩))
      · refine ⟨"RM is being told to abort", flat _ ?_⟩
        simp only [List.mem_append]
        exact Or.inr ((mem_guarded _ _ _ _ _).2 ⟨rfl, h1, h2⟩)

/-! ### The inductive invariant -/

theorem inv_init (sys : TwoPhaseSys R) : Inv sys sys.initState := by
  refine ⟨?_, ?_, ?_, ?_, ?_, ?_⟩
  · simp only [TwoPhaseSys.initState, mapKeys, List.map_map]
    exact List.map_id sys.rms
  · simp [TwoPhaseSys.initState]
  · simp [TwoPhaseSys.initState]
  · simp [TwoPhaseSys.initState]
  · simp [TwoPhaseSys.initState]
  · intro rm _
    refine ⟨?_, ?_, ?_⟩ <;> simp [TwoPhaseSys.initState, mapGet_map_const]

/-- Every rule of `next` preserves the invariant (for a well-formed
configuration, i.e. a strictly sorted id list). -/
theorem inv_step {sys : TwoPhaseSys R} {s s' : TwoPhaseState R}
    (hrms : sys.rms.Pairwise (· < ·)) (hinv : Inv sys s) (hstep : Step sys s s') :
    Inv sys s' := by
  obtain ⟨hkeys, htp, hmsg, hcommit, habort, hrm⟩ := hinv
  have hpw : (mapKeys s.rm_state).Pairwise (· < ·) := by rw [hkeys]; exact hrms
  rcases (step_iff sys s s').1 hstep with ⟨h1, h2, h3⟩ | ⟨h1, h3⟩ | ⟨rm, hrmm, hcase⟩
  · -- tm_commit
    subst h3
    refine ⟨hkeys, ?_, ?_, ?_, ?_, ?_⟩
    · intro x hx
      exact ⟨(htp x hx).1, Finset.mem_insert_of_mem (htp x hx).2⟩
    · intro m hm
      rcases Finset.mem_insert.1 hm with rfl | hm
      · simp [msgOK]
      · cases m with
        | Prepared x => exact hmsg _ hm
        | Commit => simp [msgOK]
        | Abort => exact absurd (hmsg _ hm) (by simp [msgOK, h1])
    · intro _
      exact ⟨Finset.mem_insert_self _ _, h2⟩
    · intro h
      simp at h
    · intro x hx
      refine ⟨?_, ?_, ?_⟩
      · exact fun hP => Finset.mem_insert_of_mem ((hrm x hx).1 hP)
      · exact fun _ => Finset.mem_insert_self _ _
      · intro hA hprep
        have hprep' : Message.Prepared x ∈ s.msgs := by
          rcases Finset.mem_insert.1 hprep with h | h
          · exact absurd h (by simp)
          · exact h
        exact absurd (hmsg _ ((hrm x hx).2.2 hA hprep')) (by simp [msgOK, h1])
  · -- tm_abort
    subst h3
    refine ⟨hkeys, ?_, ?_, ?_, ?_, ?_⟩
    · intro x hx
      exact ⟨(htp x hx).1, Finset.mem_insert_of_mem (htp x hx).2⟩
    · intro m hm
      rcases Finset.mem_insert.1 hm with rfl | hm
      · simp [msgOK]
      · cases m with
        | Prepared x => exact hmsg _ hm
        | Commit => exact absurd (hmsg _ hm) (by simp [msgOK, h1])
        | Abort => simp [msgOK]
    · intro h
      simp at h
    · intro _
      exact Finset.mem_insert_self _ _
    · intro x hx
      refine ⟨?_, ?_, ?_⟩
      · exact fun hP => Finset.mem_insert_of_mem ((hrm x hx).1 hP)
      · intro hC
        exact absurd (hmsg _ ((hrm x hx).2.1 hC)) (by simp [msgOK, h1])
      · exact fun _ _ => Finset.mem_insert_self _ _
  · rcases hcase with ⟨h1, h2, h3⟩ | ⟨h1, h3⟩ | ⟨h1, h3⟩ | ⟨h1, h3⟩ | ⟨h1, h3⟩
    · -- tm_rcv_prepared
      subst h3
      refine ⟨hkeys, ?_, hmsg, ?_, habort, hrm⟩
      · intro x hx
        rcases Finset.mem_insert.1 hx with rfl | hx
        · exact ⟨hrmm, h2⟩
        · exact htp x hx
      · intro h
        rw [h1] at h
        simp at h
    · -- rm_prepare
      subst h3
      have hrmk : rm ∈ mapKeys s.rm_state := by rw [hkeys]; exact hrmm
      refine ⟨?_, ?_, ?_, ?_, ?_, ?_⟩
      · rw [mapKeys_mapInsert_of_mem _ hpw hrmk, hkeys]
      · intro x hx
        exact ⟨(htp x hx).1, Finset.mem_insert_of_mem (htp x hx).2⟩
      · intro m hm
        rcases Finset.mem_insert.1 hm with rfl | hm
        · refine ⟨hrmm, ?_⟩
          rw [mapGet_mapInsert_self]
          simp
        · cases m with
          | Prepared x =>
            refine ⟨(hmsg _ hm).1, ?_⟩
            by_cases hx : x = rm
            · subst hx
              rw [mapGet_mapInsert_self]
              simp
            · rw [mapGet_mapInsert_ne _ _ hx]
              exact (hmsg _ hm).2
          | Commit => exact hmsg _ hm
          | Abort => exact hmsg _ hm
      · intro h
        exact ⟨Finset.mem_insert_of_mem (hcommit h).1, (hcommit h).2⟩
      · intro h
        exact Finset.mem_insert_of_mem (habort h)
      · intro x hx
        by_cases hxr : x = rm
        · subst hxr
          rw [mapGet_mapInsert_self]
          refine ⟨fun _ => Finset.mem_insert_self _ _, ?_, ?_⟩ <;>
            intro h <;> simp at h
        · rw [mapGet_mapInsert_ne _ _ hxr]
          refine ⟨?_, ?_, ?_⟩
          · exact fun hP => Finset.mem_insert_of_mem ((hrm x hx).1 hP)
          · exact fun hC => Finset.mem_insert_of_mem ((hrm x hx).2.1 hC)
          · intro hA hprep
            have hprep' : Message.Prepared x ∈ s.msgs := by
              rcases Finset.mem_insert.1 hprep with h | h
              · exact absurd h (by simp [hxr])
              · exact h
            exact Finset.mem_insert_of_mem ((hrm x hx).2.2 hA hprep')
    · -- rm_choose_to_abort
      subst h3
      have hrmk : rm ∈ mapKeys s.rm_state := by rw [hkeys]; exact hrmm
      have hnoprep : Message.Prepared rm ∉ s.msgs := by
        intro hmem
        exact absurd h1 (hmsg _ hmem).2
      refine ⟨?_, htp, ?_, hcommit, habort, ?_⟩
      · rw [mapKeys_mapInsert_of_mem _ hpw hrmk, hkeys]
      · intro m hm
        cases m with
        | Prepared x =>
          refine ⟨(hmsg _ hm).1, ?_⟩
          by_cases hx : x = rm
          · subst hx
            rw [mapGet_mapInsert_self]
            simp
          · rw [mapGet_mapInsert_ne _ _ hx]
            exact (hmsg _ hm).2
        | Commit => exact hmsg _ hm
        | Abort => exact hmsg _ hm
      · intro x hx
        by_cases hxr : x = rm
        · subst hxr
          rw [mapGet_mapInsert_self]
          refine ⟨?_, ?_, ?_⟩
          · intro h
            simp at h
          · intro h
            simp at h
          · intro _ hprep
            exact absurd hprep hnoprep
        · rw [mapGet_mapInsert_ne _ _ hxr]
          exact hrm x hx
    · -- rm_rcv_commit_msg
      subst h3
      have htm : s.tm_state = TmState.Committed := hmsg _ h1
      have hrmk : rm ∈ mapKeys s.rm_state := by rw [hkeys]; exact hrmm
      refine ⟨?_, htp, ?_, ?_, ?_, ?_⟩
      · rw [mapKeys_mapInsert_of_mem _ hpw hrmk, hkeys]
      · intro m hm
        cases m with
        | Prepared x =>
          refine ⟨(hmsg _ hm).1, ?_⟩
          by_cases hx : x = rm
          · subst hx
            rw [mapGet_mapInsert_self]
            simp
          · rw [mapGet_mapInsert_ne _ _ hx]
            exact (hmsg _ hm).2
        | Commit => exact hmsg _ hm
        | Abort => exact hmsg _ hm
      · intro h
        exact hcommit h
      · intro h
        rw [htm] at h
        simp at h
      · intro x hx
        by_cases hxr : x = rm
        · subst hxr
          rw [mapGet_mapInsert_self]
          refine ⟨?_, fun _ => h1, ?_⟩ <;> intro h <;> simp at h
        · rw [mapGet_mapInsert_ne _ _ hxr]
          exact hrm x hx
    · -- rm_rcv_abort_msg
      subst h3
      have hrmk : rm ∈ mapKeys s.rm_state := by rw [hkeys]; exact hrmm
      refine ⟨?_, htp, ?_, ?_, ?_, ?_⟩
      · rw [mapKeys_mapInsert_of_mem _ hpw hrmk, hkeys]
      · intro m hm
        cases m with
        | Prepared x =>
          refine ⟨(hmsg _ hm).1, ?_⟩
          by_cases hx : x = rm
          · subst hx
            rw [mapGet_mapInsert_self]
            simp
          · rw [mapGet_mapInsert_ne _ _ hx]
            exact (hmsg _ hm).2
        | Commit => exact hmsg _ hm
        | Abort => exact hmsg _ hm
      · intro h
        exact hcommit h
      · intro h
        exact habort h
      · intro x hx
        by_cases hxr : x = rm
        · subst hxr
          rw [mapGet_mapInsert_self]
          refine ⟨?_, ?_, fun _ _ => h1⟩ <;> intro h <;> simp at h
        · rw [mapGet_mapInsert_ne _ _ hxr]
          exact hrm x hx

/-- Every reachable state satisfies the invariant. -/
theorem reachable_inv {sys : TwoPhaseSys R} (hrms : sys.rms.Pairwise (· < ·))
    {s : TwoPhaseState R} (h : Reachable sys s) : Inv sys s := by
  induction h with
  | refl => exact inv_init sys
  | tail _ hstep ih => exact inv_step hrms ih hstep

/-! ### Consequences of the invariant -/

theorem is_consistent_iff (sys : TwoPhaseSys R) (s : TwoPhaseState R) :
    is_consistent sys s = true ↔
      ¬ ∃ rm1 ∈ sys.rms, ∃ rm2 ∈ sys.rms,
        mapGet s.rm_state rm1 = some RmState.Aborted ∧
        mapGet s.rm_state rm2 = some RmState.Committed := by
  simp [is_consistent, List.any_eq_true]

theorem inv_consistent {sys : TwoPhaseSys R} {s : TwoPhaseState R}
    (hinv : Inv sys s) : is_consistent sys s = true := by
  obtain ⟨hkeys, htp, hmsg, hcommit, habort, hrm⟩ := hinv
  rw [is_consistent_iff]
  rintro ⟨rm1, hrm1, rm2, hrm2, hA, hC⟩
  have hCommit : Message.Commit ∈ s.msgs := (hrm rm2 hrm2).2.1 hC
  have htmC : s.tm_state = TmState.Committed := hmsg _ hCommit
  have htpfull : s.tm_prepared = sys.rms.toFinset := (hcommit htmC).2
  have hprep1 : Message.Prepared rm1 ∈ s.msgs := by
    refine (htp rm1 ?_).2
    rw [htpfull]
    exact List.mem_toFinset.2 hrm1
  have hAbort : Message.Abort ∈ s.msgs := (hrm rm1 hrm1).2.2 hA hprep1
  have htmA : s.tm_state = TmState.Aborted := hmsg _ hAbort
  rw [htmC] at htmA
  exact TmState.noConfusion htmA

/-- Claim C1: the safety invariant holds in every reachable state. -/
theorem consistency_invariant (sys : TwoPhaseSys R)
    (hrms : sys.rms.Pairwise (· < ·)) (s : TwoPhaseState R)
    (h : Reachable sys s) : is_consistent sys s = true :=
  inv_consistent (reachable_inv hrms h)

/-- Claim C10: `Commit` and `Abort` are never both in `msgs` in a
reachable state. -/
theorem no_commit_and_abort (sys : TwoPhaseSys R)
    (hrms : sys.rms.Pairwise (· < ·)) (s : TwoPhaseState R)
    (h : Reachable sys s) :
    ¬ (Message.Commit ∈ s.msgs ∧ Message.Abort ∈ s.msgs) := by
  obtain ⟨hkeys, htp, hmsg, hcommit, habort, hrm⟩ := reachable_inv hrms h
  rintro ⟨hc, ha⟩
  have h1 : s.tm_state = TmState.Committed := hmsg _ hc
  have h2 : s.tm_state = TmState.Aborted := hmsg _ ha
  rw [h1] at h2
  exact TmState.noConfusion h2

/-- Claim C4: the TM's status becomes `Committed` only by a `tm_commit`
step from a state where it is `Init` and every configured RM is in
`tm_prepared`; that step adds the `Commit` message. -/
theorem commit_precondition (sys : TwoPhaseSys R)
    (hrms : sys.rms.Pairwise (· < ·)) (s s' : TwoPhaseState R)
    (hre : Reachable sys s) (hstep : Step sys s s')
    (hold : s.tm_state ≠ TmState.Committed)
    (hnew : s'.tm_state = TmState.Committed) :
    s.tm_state = TmState.Init ∧ s.tm_prepared = sys.rms.toFinset ∧
    Message.Commit ∉ s.msgs ∧ s'.msgs = insert Message.Commit s.msgs := by
  obtain ⟨hkeys, htp, hmsg, hcommit, habort, hrm⟩ := reachable_inv hrms hre
  have hnotin : Message.Commit ∉ s.msgs := fun hc => hold (hmsg _ hc)
  rcases (step_iff sys s s').1 hstep with ⟨h1, h2, h3⟩ | ⟨h1, h3⟩ | ⟨rm, hrmm, hcase⟩
  · subst h3
    exact ⟨h1, h2, hnotin, rfl⟩
  · subst h3
    simp at hnew
  · rcases hcase with ⟨h1, h2, h3⟩ | ⟨h1, h3⟩ | ⟨h1, h3⟩ | ⟨h1, h3⟩ | ⟨h1, h3⟩ <;>
      subst h3 <;> exact absurd hnew hold

/-- Claim C2: along any step from a reachable state, `msgs` never shrinks
and every status only moves forward through its lifecycle. -/
theorem step_monotone (sys : TwoPhaseSys R)
    (hrms : sys.rms.Pairwise (· < ·)) (s s' : TwoPhaseState R)
    (hre : Reachable sys s) (hstep : Step sys s s') :
    s.msgs ⊆ s'.msgs ∧ TmForward s.tm_state s'.tm_state ∧
    ∀ rm ∈ sys.rms, ∀ v v', mapGet s.rm_state rm = some v →
      mapGet s'.rm_state rm = some v' → RmForward v v' := by
  obtain ⟨hkeys, htp, hmsg, hcommit, habort, hrm⟩ := reachable_inv hrms hre
  rcases (step_iff sys s s').1 hstep with ⟨h1, h2, h3⟩ | ⟨h1, h3⟩ | ⟨rm, hrmm, hcase⟩
  · subst h3
    refine ⟨Finset.subset_insert _ _, ?_, ?_⟩
    · rw [h1]
      exact TmForward.init_commit
    · intro x hx v v' hv hv'
      rw [hv] at hv'
      cases hv'
      exact RmForward.refl v
  · subst h3
    refine ⟨Finset.subset_insert _ _, ?_, ?_⟩
    · rw [h1]
      exact TmForward.init_abort
    · intro x hx v v' hv hv'
      rw [hv] at hv'
      cases hv'
      exact RmForward.refl v
  · rcases hcase with ⟨h1, h2, h3⟩ | ⟨h1, h3⟩ | ⟨h1, h3⟩ | ⟨h1, h3⟩ | ⟨h1, h3⟩
    · subst h3
      refine ⟨Finset.Subset.refl _, TmForward.refl _, ?_⟩
      intro x hx v v' hv hv'
      rw [hv] at hv'
      cases hv'
      exact RmForward.refl v
    · -- rm_prepare
      subst h3
      refine ⟨Finset.subset_insert _ _, TmForward.refl _, ?_⟩
      intro x hx v v' hv hv'
      by_cases hxr : x = rm
      · subst hxr
        rw [hv] at h1
        cases h1
        rw [mapGet_mapInsert_self] at hv'
        cases hv'
        exact RmForward.work_prep
      · rw [mapGet_mapInsert_ne _ _ hxr] at hv'
        rw [hv] at hv'
        cases hv'
        exact RmForward.refl v
    · -- rm_choose_to_abort
      subst h3
      refine ⟨Finset.Subset.refl _, TmForward.refl _, ?_⟩
      intro x hx v v' hv hv'
      by_cases hxr : x = rm
      · subst hxr
        rw [hv] at h1
        cases h1
        rw [mapGet_mapInsert_self] at hv'
        cases hv'
        exact RmForward.work_abort
      · rw [mapGet_mapInsert_ne _ _ hxr] at hv'
        rw [hv] at hv'
        cases hv'
        exact RmForward.refl v
    · -- rm_rcv_commit_msg
      subst h3
      have htmC : s.tm_state = TmState.Committed := hmsg _ h1
      have htpfull : s.tm_prepared = sys.rms.toFinset := (hcommit htmC).2
      refine ⟨Finset.Subset.refl _, TmForward.refl _, ?_⟩
      intro x hx v v' hv hv'
      by_cases hxr : x = rm
      · subst hxr
        rw [mapGet_mapInsert_self] at hv'
        cases hv'
        have hprep : Message.Prepared x ∈ s.msgs := by
          refine (htp x ?_).2
          rw [htpfull]
          exact List.mem_toFinset.2 hx
        have hnW : mapGet s.rm_state x ≠ some RmState.Working := (hmsg _ hprep).2
        cases v with
        | Working => exact absurd hv hnW
        | Prepared => exact RmForward.prep_commit
        | Committed => exact RmForward.refl _
        | Aborted =>
          have hAbort : Message.Abort ∈ s.msgs := (hrm x hx).2.2 hv hprep
          have htmA : s.tm_state = TmState.Aborted := hmsg _ hAbort
          rw [htmC] at htmA
          exact TmState.noConfusion htmA
      · rw [mapGet_mapInsert_ne _ _ hxr] at hv'
        rw [hv] at hv'
        cases hv'
        exact RmForward.refl v
    · -- rm_rcv_abort_msg
      subst h3
      have htmA : s.tm_state = TmState.Aborted := hmsg _ h1
      refine ⟨Finset.Subset.refl _, TmForward.refl _, ?_⟩
      intro x hx v v' hv hv'
      by_cases hxr : x = rm
      · subst hxr
        rw [mapGet_mapInsert_self] at hv'
        cases hv'
        cases v with
        | Working => exact RmForward.work_abort
        | Prepared => exact RmForward.prep_abort
        | Aborted => exact RmForward.refl _
        | Committed =>
          have hCommit : Message.Commit ∈ s.msgs := (hrm x hx).2.1 hv
          have htmC : s.tm_state = TmState.Committed := hmsg _ hCommit
          rw [htmC] at htmA
          exact TmState.noConfusion htmA
      · rw [mapGet_mapInsert_ne _ _ hxr] at hv'
        rw [hv] at hv'
        cases hv'
        exact RmForward.refl v

/-- Claim C9: `init` gives every configured RM (and nothing else) status
`Working`, the key set of `rm_state` always equals the configured id list,
and no step adds or removes keys. -/
theorem rm_state_keys (sys : TwoPhaseSys R)
    (hrms : sys.rms.Pairwise (· < ·)) (s s' : TwoPhaseState R) :
    (∀ rm, mapGet sys.initState.rm_state rm =
      if rm ∈ sys.rms then some RmState.Working else none) ∧
    (Reachable sys s → mapKeys s.rm_state = sys.rms) ∧
    (Reachable sys s → Step sys s s' →
      mapKeys s'.rm_state = mapKeys s.rm_state) := by
  refine ⟨?_, ?_, ?_⟩
  · intro rm
    simp [TwoPhaseSys.initState, mapGet_map_const]
  · intro h
    exact (reachable_inv hrms h).1
  · intro h hstep
    have h1 : mapKeys s.rm_state = sys.rms := (reachable_inv hrms h).1
    have h2 : mapKeys s'.rm_state = sys.rms :=
      (inv_step hrms (reachable_inv hrms h) hstep).1
    rw [h1, h2]

/-! ### Completeness: every invariant state is reachable -/

/-- Every invariant state other than the initial one has an invariant
predecessor of smaller rank. -/
theorem eq_init_or_exists_pred {sys : TwoPhaseSys R}
    (hrms : sys.rms.Pairwise (· < ·)) {s : TwoPhaseState R} (hinv : Inv sys s) :
    s = sys.initState ∨ ∃ p, Inv sys p ∧ Step sys p s ∧ rank p < rank s := by
  obtain ⟨hkeys, htp, hmsg, hcommit, habort, hrm⟩ := hinv
  have hpw : (mapKeys s.rm_state).Pairwise (· < ·) := by rw [hkeys]; exact hrms
  by_cases hC : ∃ rm ∈ sys.rms, mapGet s.rm_state rm = some RmState.Committed
  · -- some RM is Committed: undo its rm_rcv_commit_msg
    right
    obtain ⟨rm, hrmm, hget⟩ := hC
    have hCommitMsg : Message.Commit ∈ s.msgs := (hrm rm hrmm).2.1 hget
    have htmC : s.tm_state = TmState.Committed := hmsg _ hCommitMsg
    have htpfull : s.tm_prepared = sys.rms.toFinset := (hcommit htmC).2
    have hprep_rm : Message.Prepared rm ∈ s.msgs := by
      refine (htp rm ?_).2
      rw [htpfull]
      exact List.mem_toFinset.2 hrmm
    have hrmk : rm ∈ mapKeys s.rm_state := by rw [hkeys]; exact hrmm
    refine ⟨{ s with rm_state := mapInsert s.rm_state rm RmState.Prepared }, ⟨?_, htp, ?_, hcommit, habort, ?_⟩, ?_, ?_⟩
    · rw [mapKeys_mapInsert_of_mem _ hpw hrmk, hkeys]
    · intro m hm
      cases m with
      | Prepared x =>
        refine ⟨(hmsg _ hm).1, ?_⟩
        by_cases hx : x = rm
        · subst hx
          rw [mapGet_mapInsert_self]
          simp
        · rw [mapGet_mapInsert_ne _ _ hx]
          exact (hmsg _ hm).2
      | Commit => exact hmsg _ hm
      | Abort => exact hmsg _ hm
    · intro x hx
      by_cases hxr : x = rm
      · subst hxr
        rw [mapGet_mapInsert_self]
        refine ⟨fun _ => hprep_rm, ?_, ?_⟩ <;> intro h <;> simp at h
      · rw [mapGet_mapInsert_ne _ _ hxr]
        exact hrm x hx
    · refine (step_iff sys _ s).2 (Or.inr (Or.inr ⟨rm, hrmm,
        Or.inr (Or.inr (Or.inr (Or.inl ⟨hCommitMsg, ?_⟩)))⟩))
      have heq : mapInsert (mapInsert s.rm_state rm RmState.Prepared) rm
          RmState.Committed = s.rm_state := by
        rw [mapInsert_mapInsert]
        exact mapInsert_eq_self hpw hget
      ext1 <;> simp [heq]
    · have hsum := sum_map_mapInsert rmRank RmState.Prepared hpw hget
      simp only [rank, rmRank] at hsum ⊢
      omega
  · by_cases htmc : s.tm_state = TmState.Committed
    · -- TM Committed and no RM Committed: undo tm_commit
      right
      have hCommitMsg : Message.Commit ∈ s.msgs := (hcommit htmc).1
      have htpfull : s.tm_prepared = sys.rms.toFinset := (hcommit htmc).2
      have hnoA : ∀ x, mapGet s.rm_state x = some RmState.Aborted → False := by
        intro x hx
        have hxrms : x ∈ sys.rms := by
          rw [← hkeys]
          exact mem_of_mapGet_eq_some hx
        have hprep : Message.Prepared x ∈ s.msgs := by
          refine (htp x ?_).2
          rw [htpfull]
          exact List.mem_toFinset.2 hxrms
        have hab : Message.Abort ∈ s.msgs := (hrm x hxrms).2.2 hx hprep
        have h2 : s.tm_state = TmState.Aborted := hmsg _ hab
        rw [htmc] at h2
        exact TmState.noConfusion h2
      refine ⟨{ s with tm_state := TmState.Init, msgs := s.msgs.erase Message.Commit }, ⟨hkeys, ?_, ?_, ?_, ?_, ?_⟩, ?_, ?_⟩
      · intro x hx
        refine ⟨(htp x hx).1, Finset.mem_erase.2 ⟨by simp, (htp x hx).2⟩⟩
      · intro m hm
        have hm' : m ∈ s.msgs := Finset.mem_of_mem_erase hm
        cases m with
        | Prepared x => exact hmsg _ hm'
        | Commit => exact absurd hm (Finset.not_mem_erase _ _)
        | Abort =>
          have h2 : s.tm_state = TmState.Aborted := hmsg _ hm'
          rw [htmc] at h2
          exact absurd h2 (by simp)
      · intro h
        simp at h
      · intro h
        simp at h
      · intro x hx
        refine ⟨?_, ?_, ?_⟩
        · intro hP
          exact Finset.mem_erase.2 ⟨by simp, (hrm x hx).1 hP⟩
        · intro hCx
          exact absurd ⟨x, hx, hCx⟩ hC
        · intro hA _
          exact absurd hA (fun hA => hnoA x hA)
      · refine (step_iff sys _ s).2 (Or.inl ⟨rfl, htpfull, ?_⟩)
        ext1 <;> simp [htmc, Finset.insert_erase hCommitMsg]
      · have hlt : (s.msgs.erase Message.Commit).card < s.msgs.card :=
          Finset.card_erase_lt_of_mem hCommitMsg
        simp only [rank, tmRank, htmc]
        omega
    · by_cases htma : s.tm_state = TmState.Aborted
      · by_cases hAp : ∃ rm ∈ sys.rms, mapGet s.rm_state rm = some RmState.Aborted ∧
            Message.Prepared rm ∈ s.msgs
        · -- an RM is Aborted with its Prepared broadcast: undo rm_rcv_abort_msg
          right
          obtain ⟨rm, hrmm, hget, hprep⟩ := hAp
          have hAbortMsg : Message.Abort ∈ s.msgs := habort htma
          have hrmk : rm ∈ mapKeys s.rm_state := by rw [hkeys]; exact hrmm
          refine ⟨{ s with rm_state := mapInsert s.rm_state rm RmState.Prepared }, ⟨?_, htp, ?_, hcommit, habort, ?_⟩, ?_, ?_⟩
          · rw [mapKeys_mapInsert_of_mem _ hpw hrmk, hkeys]
          · intro m hm
            cases m with
            | Prepared x =>
              refine ⟨(hmsg _ hm).1, ?_⟩
              by_cases hx : x = rm
              · subst hx
                rw [mapGet_mapInsert_self]
                simp
              · rw [mapGet_mapInsert_ne _ _ hx]
                exact (hmsg _ hm).2
            | Commit => exact hmsg _ hm
            | Abort => exact hmsg _ hm
          · intro x hx
            by_cases hxr : x = rm
            · subst hxr
              rw [mapGet_mapInsert_self]
              refine ⟨fun _ => hprep, ?_, ?_⟩ <;> intro h <;> simp at h
            · rw [mapGet_mapInsert_ne _ _ hxr]
              exact hrm x hx
          · refine (step_iff sys _ s).2 (Or.inr (Or.inr ⟨rm, hrmm,
              Or.inr (Or.inr (Or.inr (Or.inr ⟨hAbortMsg, ?_⟩)))⟩))
            have heq : mapInsert (mapInsert s.rm_state rm RmState.Prepared) rm
                RmState.Aborted = s.rm_state := by
              rw [mapInsert_mapInsert]
              exact mapInsert_eq_self hpw hget
            ext1 <;> simp [heq]
          · have hsum := sum_map_mapInsert rmRank RmState.Prepared hpw hget
            simp only [rank, rmRank] at hsum ⊢
            omega
        · -- TM Aborted, no RM Aborted-with-Prepared: undo tm_abort
          right
          have hAbortMsg : Message.Abort ∈ s.msgs := habort htma
          refine ⟨{ s with tm_state := TmState.Init, msgs := s.msgs.erase Message.Abort }, ⟨hkeys, ?_, ?_, ?_, ?_, ?_⟩, ?_, ?_⟩
          · intro x hx
            refine ⟨(htp x hx).1, Finset.mem_erase.2 ⟨by simp, (htp x hx).2⟩⟩
          · intro m hm
            have hm' : m ∈ s.msgs := Finset.mem_of_mem_erase hm
            cases m with
            | Prepared x => exact hmsg _ hm'
            | Commit =>
              have h2 : s.tm_state = TmState.Committed := hmsg _ hm'
              rw [htma] at h2
              exact absurd h2 (by simp)
            | Abort => exact absurd hm (Finset.not_mem_erase _ _)
          · intro h
            simp at h
          · intro h
            simp at h
          · intro x hx
            refine ⟨?_, ?_, ?_⟩
            · intro hP
              exact Finset.mem_erase.2 ⟨by simp, (hrm x hx).1 hP⟩
            · intro hCx
              have h2 : s.tm_state = TmState.Committed := hmsg _ ((hrm x hx).2.1 hCx)
              rw [htma] at h2
              exact absurd h2 (by simp)
            · intro hA hprep
              exact absurd ⟨x, hx, hA, Finset.mem_of_mem_erase hprep⟩ hAp
          · refine (step_iff sys _ s).2 (Or.inr (Or.inl ⟨rfl, ?_⟩))
            ext1 <;> simp [htma, Finset.insert_erase hAbortMsg]
          · have hlt : (s.msgs.erase Message.Abort).card < s.msgs.card :=
              Finset.card_erase_lt_of_mem hAbortMsg
            simp only [rank, tmRank, htma]
            omega
      · -- TM is Init
        have htmi : s.tm_state = TmState.Init := by
          cases h : s.tm_state
          · rfl
          · exact absurd h htmc
          · exact absurd h htma
        by_cases htpe : s.tm_prepared = ∅
        · by_cases hA : ∃ rm ∈ sys.rms, mapGet s.rm_state rm = some RmState.Aborted
          · -- an RM is Aborted (TM Init): undo rm_choose_to_abort
            right
            obtain ⟨rm, hrmm, hget⟩ := hA
            have hrmk : rm ∈ mapKeys s.rm_state := by rw [hkeys]; exact hrmm
            have hnotprep : Message.Prepared rm ∉ s.msgs := by
              intro hmem
              have h2 : s.tm_state = TmState.Aborted := hmsg _ ((hrm rm hrmm).2.2 hget hmem)
              rw [htmi] at h2
              exact absurd h2 (by simp)
            refine ⟨{ s with rm_state := mapInsert s.rm_state rm RmState.Working }, ⟨?_, htp, ?_, hcommit, habort, ?_⟩, ?_, ?_⟩
            · rw [mapKeys_mapInsert_of_mem _ hpw hrmk, hkeys]
            · intro m hm
              cases m with
              | Prepared x =>
                refine ⟨(hmsg _ hm).1, ?_⟩
                by_cases hx : x = rm
                · subst hx
                  exact absurd hm hnotprep
                · rw [mapGet_mapInsert_ne _ _ hx]
                  exact (hmsg _ hm).2
              | Commit => exact hmsg _ hm
              | Abort => exact hmsg _ hm
            · intro x hx
              by_cases hxr : x = rm
              · subst hxr
                rw [mapGet_mapInsert_self]
                refine ⟨?_, ?_, ?_⟩ <;> intro h <;> simp at h
              · rw [mapGet_mapInsert_ne _ _ hxr]
                exact hrm x hx
            · refine (step_iff sys _ s).2 (Or.inr (Or.inr ⟨rm, hrmm,
                Or.inr (Or.inr (Or.inl ⟨mapGet_mapInsert_self _ _ _, ?_⟩))⟩))
              have heq : mapInsert (mapInsert s.rm_state rm RmState.Working) rm
                  RmState.Aborted = s.rm_state := by
                rw [mapInsert_mapInsert]
                exact mapInsert_eq_self hpw hget
              ext1 <;> simp [heq]
            · have hsum := sum_map_mapInsert rmRank RmState.Working hpw hget
              simp only [rank, rmRank] at hsum ⊢
              omega
          · by_cases hP : ∃ rm ∈ sys.rms, mapGet s.rm_state rm = some RmState.Prepared
            · -- an RM is Prepared (TM Init, no prepared set): undo rm_prepare
              right
              obtain ⟨rm, hrmm, hget⟩ := hP
              have hrmk : rm ∈ mapKeys s.rm_state := by rw [hkeys]; exact hrmm
              have hprepmsg : Message.Prepared rm ∈ s.msgs := (hrm rm hrmm).1 hget
              refine ⟨{ s with rm_state := mapInsert s.rm_state rm RmState.Working, msgs := s.msgs.erase (Message.Prepared rm) }, ⟨?_, ?_, ?_, ?_, ?_, ?_⟩, ?_, ?_⟩
              · rw [mapKeys_mapInsert_of_mem _ hpw hrmk, hkeys]
              · intro x hx
                rw [htpe] at hx
                exact absurd hx (Finset.not_mem_empty x)
              · intro m hm
                have hm' : m ∈ s.msgs := Finset.mem_of_mem_erase hm
                cases m with
                | Prepared x =>
                  have hx : ¬ x = rm := by
                    intro hx
                    subst hx
                    exact absurd hm (Finset.not_mem_erase _ _)
                  refine ⟨(hmsg _ hm').1, ?_⟩
                  rw [mapGet_mapInsert_ne _ _ hx]
                  exact (hmsg _ hm').2
                | Commit =>
                  have h2 : s.tm_state = TmState.Committed := hmsg _ hm'
                  rw [htmi] at h2
                  exact absurd h2 (by simp)
                | Abort =>
                  have h2 : s.tm_state = TmState.Aborted := hmsg _ hm'
                  rw [htmi] at h2
                  exact absurd h2 (by simp)
              · intro h
                simp only at h
                rw [htmi] at h
                exact absurd h (by simp)
              · intro h
                simp only at h
                rw [htmi] at h
                exact absurd h (by simp)
              · intro x hx
                by_cases hxr : x = rm
                · subst hxr
                  rw [mapGet_mapInsert_self]
                  refine ⟨?_, ?_, ?_⟩ <;> intro h <;> simp at h
                · rw [mapGet_mapInsert_ne _ _ hxr]
                  refine ⟨?_, ?_, ?_⟩
                  · intro hPx
                    refine Finset.mem_erase.2 ⟨by simp [hxr], (hrm x hx).1 hPx⟩
                  · intro hCx
                    exact absurd ⟨x, hx, hCx⟩ hC
                  · intro hAx
                    exact absurd ⟨x, hx, hAx⟩ hA
              · refine (step_iff sys _ s).2 (Or.inr (Or.inr ⟨rm, hrmm,
                  Or.inr (Or.inl ⟨mapGet_mapInsert_self _ _ _, ?_⟩)⟩))
                have heq : mapInsert (mapInsert s.rm_state rm RmState.Working) rm
                    RmState.Prepared = s.rm_state := by
                  rw [mapInsert_mapInsert]
                  exact mapInsert_eq_self hpw hget
                ext1 <;> simp [heq, Finset.insert_erase hprepmsg]
              · have hsum := sum_map_mapInsert rmRank RmState.Working hpw hget
                have hlt : (s.msgs.erase (Message.Prepared rm)).card < s.msgs.card :=
                  Finset.card_erase_lt_of_mem hprepmsg
                simp only [rank, rmRank] at hsum ⊢
                omega
            · -- every RM is Working: this is the initial state
              left
              have hallW : ∀ p ∈ s.rm_state, p.2 = RmState.Working := by
                intro p hp
                have hget := mapGet_of_mem hpw hp
                have hprms : p.1 ∈ sys.rms := by
                  rw [← hkeys]
                  exact mem_of_mapGet_eq_some hget
                cases hv : p.2 with
                | Working => rfl
                | Prepared =>
                  rw [hv] at hget
                  exact absurd ⟨p.1, hprms, hget⟩ hP
                | Committed =>
                  rw [hv] at hget
                  exact absurd ⟨p.1, hprms, hget⟩ hC
                | Aborted =>
                  rw [hv] at hget
                  exact absurd ⟨p.1, hprms, hget⟩ hA
              have hmE : s.msgs = ∅ := by
                refine Finset.eq_empty_iff_forall_not_mem.2 ?_
                intro m hm
                cases m with
                | Prepared x =>
                  obtain ⟨hxrms, hxW⟩ := hmsg _ hm
                  have hxk : x ∈ mapKeys s.rm_state := by rw [hkeys]; exact hxrms
                  obtain ⟨v, hv⟩ := mapGet_isSome_of_mem hxk
                  obtain ⟨q, hq, hq1⟩ : ∃ q ∈ s.rm_state, q.1 = x := by
                    simp only [mapKeys, List.mem_map] at hxk
                    obtain ⟨q, hq, hq1⟩ := hxk
                    exact ⟨q, hq, hq1⟩
                  have : mapGet s.rm_state x = some RmState.Working := by
                    have := mapGet_of_mem hpw hq
                    rw [hq1] at this
                    rw [this, hallW q hq]
                  exact hxW this
                | Commit =>
                  have h2 : s.tm_state = TmState.Committed := hmsg _ hm
                  rw [htmi] at h2
                  exact absurd h2 (by simp)
                | Abort =>
                  have h2 : s.tm_state = TmState.Aborted := hmsg _ hm
                  rw [htmi] at h2
                  exact absurd h2 (by simp)
              have hrs : s.rm_state = sys.rms.map (fun r => (r, RmState.Working)) := by
                rw [eq_map_const_of_forall hallW, hkeys]
              ext1
              · rw [hrs]
                rfl
              · rw [htmi]
                rfl
              · rw [htpe]
                rfl
              · rw [hmE]
                rfl
        · -- some RM is in tm_prepared: undo tm_rcv_prepared
          right
          obtain ⟨rm, hmem⟩ := Finset.nonempty_iff_ne_empty.2 htpe
          have hrmm : rm ∈ sys.rms := (htp rm hmem).1
          have hprepmsg : Message.Prepared rm ∈ s.msgs := (htp rm hmem).2
          refine ⟨{ s with tm_prepared := s.tm_prepared.erase rm }, ⟨hkeys, ?_, hmsg, ?_, habort, hrm⟩, ?_, ?_⟩
          · intro x hx
            exact htp x (Finset.mem_of_mem_erase hx)
          · intro h
            simp only at h
            rw [htmi] at h
            exact absurd h (by simp)
          · refine (step_iff sys _ s).2 (Or.inr (Or.inr ⟨rm, hrmm,
              Or.inl ⟨htmi, hprepmsg, ?_⟩⟩))
            ext1 <;> simp [Finset.insert_erase hmem]
          · have hlt : (s.tm_prepared.erase rm).card < s.tm_prepared.card :=
              Finset.card_erase_lt_of_mem hmem
            simp only [rank]
            omega

/-- Every invariant state is reachable (strong induction on `rank`). -/
theorem inv_reachable {sys : TwoPhaseSys R} (hrms : sys.rms.Pairwise (· < ·))
    {s : TwoPhaseState R} (hinv : Inv sys s) : Reachable sys s := by
  suffices h : ∀ n, ∀ t : TwoPhaseState R, rank t ≤ n → Inv sys t → Reachable sys t by
    exact h (rank s) s le_rfl hinv
  intro n
  induction n with
  | zero =>
    intro t ht hinvt
    rcases eq_init_or_exists_pred hrms hinvt with h | ⟨p, _, _, hlt⟩
    · rw [h]
      exact Relation.ReflTransGen.refl
    · omega
  | succ n ih =>
    intro t ht hinvt
    rcases eq_init_or_exists_pred hrms hinvt with h | ⟨p, hpinv, hpstep, hlt⟩
    · rw [h]
      exact Relation.ReflTransGen.refl
    · exact Relation.ReflTransGen.tail (ih p (by omega) hpinv) hpstep

/-- Reachability is exactly the invariant. -/
theorem reachable_iff_inv {sys : TwoPhaseSys R} (hrms : sys.rms.Pairwise (· < ·))
    (s : TwoPhaseState R) : Reachable sys s ↔ Inv sys s :=
  ⟨reachable_inv hrms, inv_reachable hrms⟩

/-! ### The five-RM instance of the regression test -/

theorem mem_branchEnum_iff {tm : TmState} {s : TwoPhaseState Nat} :
    s ∈ branchEnum tm ↔
      ∃ c1 ∈ combosFor tm, ∃ c2 ∈ combosFor tm, ∃ c3 ∈ combosFor tm,
        ∃ c4 ∈ combosFor tm, ∃ c5 ∈ combosFor tm,
          s = mkState tm c1 c2 c3 c4 c5 := by
  simp only [branchEnum, enumC2, enumC3, enumC4, enumC5, List.mem_flatMap,
    List.mem_map]
  constructor
  · rintro ⟨c1, h1, c2, h2, c3, h3, c4, h4, c5, h5, rfl⟩
    exact ⟨c1, h1, c2, h2, c3, h3, c4, h4, c5, h5, rfl⟩
  · rintro ⟨c1, h1, c2, h2, c3, h3, c4, h4, c5, h5, rfl⟩
    exact ⟨c1, h1, c2, h2, c3, h3, c4, h4, c5, h5, rfl⟩

theorem mem_ite_singleton {α : Type} [DecidableEq α] (b : Bool) (a x : α) :
    (x ∈ if b then ({a} : Finset α) else ∅) ↔ b = true ∧ x = a := by
  cases b <;> simp

theorem mem_ite_singleton_prop {α : Type} [DecidableEq α] (p : Prop) [Decidable p]
    (a x : α) : (x ∈ if p then ({a} : Finset α) else ∅) ↔ p ∧ x = a := by
  split_ifs with h <;> simp [h]

theorem mkState_rm_state (tm : TmState) (c1 c2 c3 c4 c5 : Combo) :
    (mkState tm c1 c2 c3 c4 c5).rm_state =
      [(1, c1.1), (2, c2.1), (3, c3.1), (4, c4.1), (5, c5.1)] := rfl

theorem mkState_tm (tm : TmState) (c1 c2 c3 c4 c5 : Combo) :
    (mkState tm c1 c2 c3 c4 c5).tm_state = tm := rfl

theorem mkState_mem_tp (tm : TmState) (c1 c2 c3 c4 c5 : Combo) (x : Nat) :
    x ∈ (mkState tm c1 c2 c3 c4 c5).tm_prepared ↔
      (c1.2.2 = true ∧ x = 1) ∨ (c2.2.2 = true ∧ x = 2) ∨
      (c3.2.2 = true ∧ x = 3) ∨ (c4.2.2 = true ∧ x = 4) ∨
      (c5.2.2 = true ∧ x = 5) := by
  simp only [mkState, Finset.mem_union, mem_ite_singleton]
  tauto

theorem mkState_mem_msgs (tm : TmState) (c1 c2 c3 c4 c5 : Combo)
    (m : Message Nat) :
    m ∈ (mkState tm c1 c2 c3 c4 c5).msgs ↔
      (c1.2.1 = true ∧ m = Message.Prepared 1) ∨
      (c2.2.1 = true ∧ m = Message.Prepared 2) ∨
      (c3.2.1 = true ∧ m = Message.Prepared 3) ∨
      (c4.2.1 = true ∧ m = Message.Prepared 4) ∨
      (c5.2.1 = true ∧ m = Message.Prepared 5) ∨
      (tm = TmState.Committed ∧ m = Message.Commit) ∨
      (tm = TmState.Aborted ∧ m = Message.Abort) := by
  simp only [mkState, Finset.mem_union, mem_ite_singleton, mem_ite_singleton_prop]
  tauto

theorem mkState_get1 (tm : TmState) (c1 c2 c3 c4 c5 : Combo) :
    mapGet (mkState tm c1 c2 c3 c4 c5).rm_state 1 = some c1.1 := by
  simp [mkState, mapGet]

theorem mkState_get2 (tm : TmState) (c1 c2 c3 c4 c5 : Combo) :
    mapGet (mkState tm c1 c2 c3 c4 c5).rm_state 2 = some c2.1 := by
  simp [mkState, mapGet]

theorem mkState_get3 (tm : TmState) (c1 c2 c3 c4 c5 : Combo) :
    mapGet (mkState tm c1 c2 c3 c4 c5).rm_state 3 = some c3.1 := by
  simp [mkState, mapGet]

theorem mkState_get4 (tm : TmState) (c1 c2 c3 c4 c5 : Combo) :
    mapGet (mkState tm c1 c2 c3 c4 c5).rm_state 4 = some c4.1 := by
  simp [mkState, mapGet]

theorem mkState_get5 (tm : TmState) (c1 c2 c3 c4 c5 : Combo) :
    mapGet (mkState tm c1 c2 c3 c4 c5).rm_state 5 = some c5.1 := by
  simp [mkState, mapGet]

theorem mkState_inj {tm tm' : TmState} {c1 c2 c3 c4 c5 c1' c2' c3' c4' c5' : Combo}
    (h : mkState tm c1 c2 c3 c4 c5 = mkState tm' c1' c2' c3' c4' c5') :
    tm = tm' ∧ c1 = c1' ∧ c2 = c2' ∧ c3 = c3' ∧ c4 = c4' ∧ c5 = c5' := by
  obtain ⟨v1, p1, t1⟩ := c1
  obtain ⟨v2, p2, t2⟩ := c2
  obtain ⟨v3, p3, t3⟩ := c3
  obtain ⟨v4, p4, t4⟩ := c4
  obtain ⟨v5, p5, t5⟩ := c5
  obtain ⟨w1, q1, u1⟩ := c1'
  obtain ⟨w2, q2, u2⟩ := c2'
  obtain ⟨w3, q3, u3⟩ := c3'
  obtain ⟨w4, q4, u4⟩ := c4'
  obtain ⟨w5, q5, u5⟩ := c5'
  have htm : tm = tm' := congrArg TwoPhaseState.tm_state h
  have hrs := congrArg TwoPhaseState.rm_state h
  simp only [mkState_rm_state, List.cons.injEq, Prod.mk.injEq, and_true,
    List.cons_ne_nil] at hrs
  have htpiff : ∀ x, x ∈ (mkState tm (v1, p1, t1) (v2, p2, t2) (v3, p3, t3)
      (v4, p4, t4) (v5, p5, t5)).tm_prepared ↔
      x ∈ (mkState tm' (w1, q1, u1) (w2, q2, u2) (w3, q3, u3) (w4, q4, u4)
      (w5, q5, u5)).tm_prepared := by
    intro x
    rw [h]
  have hmsgiff : ∀ m, m ∈ (mkState tm (v1, p1, t1) (v2, p2, t2) (v3, p3, t3)
      (v4, p4, t4) (v5, p5, t5)).msgs ↔
      m ∈ (mkState tm' (w1, q1, u1) (w2, q2, u2) (w3, q3, u3) (w4, q4, u4)
      (w5, q5, u5)).msgs := by
    intro m
    rw [h]
  have ht1 := htpiff 1
  have ht2 := htpiff 2
  have ht3 := htpiff 3
  have ht4 := htpiff 4
  have ht5 := htpiff 5
  simp only [mkState_mem_tp] at ht1 ht2 ht3 ht4 ht5
  simp at ht1 ht2 ht3 ht4 ht5
  have hp1 := hmsgiff (Message.Prepared 1)
  have hp2 := hmsgiff (Message.Prepared 2)
  have hp3 := hmsgiff (Message.Prepared 3)
  have hp4 := hmsgiff (Message.Prepared 4)
  have hp5 := hmsgiff (Message.Prepared 5)
  simp only [mkState_mem_msgs] at hp1 hp2 hp3 hp4 hp5
  simp at hp1 hp2 hp3 hp4 hp5
  refine ⟨htm, ?_, ?_, ?_, ?_, ?_⟩ <;> simp_all

theorem combos_nodup (tm : TmState) : (combosFor tm).Nodup := by
  cases tm <;> decide

theorem mem_enumC5_shape {tm : TmState} {c1 c2 c3 c4 : Combo}
    {s : TwoPhaseState Nat} (h : s ∈ enumC5 tm c1 c2 c3 c4) :
    ∃ c5, s = mkState tm c1 c2 c3 c4 c5 := by
  rcases List.mem_map.1 h with ⟨c5, _, rfl⟩
  exact ⟨c5, rfl⟩

theorem mem_enumC4_shape {tm : TmState} {c1 c2 c3 : Combo}
    {s : TwoPhaseState Nat} (h : s ∈ enumC4 tm c1 c2 c3) :
    ∃ c4 c5, s = mkState tm c1 c2 c3 c4 c5 := by
  rcases List.mem_flatMap.1 h with ⟨c4, _, h5⟩
  obtain ⟨c5, rfl⟩ := mem_enumC5_shape h5
  exact ⟨c4, c5, rfl⟩

theorem mem_enumC3_shape {tm : TmState} {c1 c2 : Combo}
    {s : TwoPhaseState Nat} (h : s ∈ enumC3 tm c1 c2) :
    ∃ c3 c4 c5, s = mkState tm c1 c2 c3 c4 c5 := by
  rcases List.mem_flatMap.1 h with ⟨c3, _, h4⟩
  obtain ⟨c4, c5, rfl⟩ := mem_enumC4_shape h4
  exact ⟨c3, c4, c5, rfl⟩

theorem mem_enumC2_shape {tm : TmState} {c1 : Combo}
    {s : TwoPhaseState Nat} (h : s ∈ enumC2 tm c1) :
    ∃ c2 c3 c4 c5, s = mkState tm c1 c2 c3 c4 c5 := by
  rcases List.mem_flatMap.1 h with ⟨c2, _, h3⟩
  obtain ⟨c3, c4, c5, rfl⟩ := mem_enumC3_shape h3
  exact ⟨c2, c3, c4, c5, rfl⟩

theorem mem_branch_shape {tm : TmState} {s : TwoPhaseState Nat}
    (h : s ∈ branchEnum tm) : ∃ c1 c2 c3 c4 c5, s = mkState tm c1 c2 c3 c4 c5 := by
  rcases List.mem_flatMap.1 h with ⟨c1, _, h2⟩
  obtain ⟨c2, c3, c4, c5, rfl⟩ := mem_enumC2_shape h2
  exact ⟨c1, c2, c3, c4, c5, rfl⟩

theorem branch_tm {tm : TmState} {s : TwoPhaseState Nat}
    (h : s ∈ branchEnum tm) : s.tm_state = tm := by
  obtain ⟨c1, c2, c3, c4, c5, rfl⟩ := mem_branch_shape h
  rfl

theorem enumC5_nodup (tm : TmState) (c1 c2 c3 c4 : Combo) :
    (enumC5 tm c1 c2 c3 c4).Nodup := by
  refine List.Nodup.map_on ?_ (combos_nodup tm)
  intro x _ y _ hxy
  exact (mkState_inj hxy).2.2.2.2.2

theorem enumC4_nodup (tm : TmState) (c1 c2 c3 : Combo) :
    (enumC4 tm c1 c2 c3).Nodup := by
  rw [enumC4, List.nodup_flatMap]
  refine ⟨fun c4 _ => enumC5_nodup tm c1 c2 c3 c4, ?_⟩
  refine (combos_nodup tm).imp ?_
  intro c4 c4' hne s hs hs'
  obtain ⟨c5, rfl⟩ := mem_enumC5_shape hs
  obtain ⟨c5', heq⟩ := mem_enumC5_shape hs'
  exact hne (mkState_inj heq).2.2.2.2.1

theorem enumC3_nodup (tm : TmState) (c1 c2 : Combo) :
    (enumC3 tm c1 c2).Nodup := by
  rw [enumC3, List.nodup_flatMap]
  refine ⟨fun c3 _ => enumC4_nodup tm c1 c2 c3, ?_⟩
  refine (combos_nodup tm).imp ?_
  intro c3 c3' hne s hs hs'
  obtain ⟨c4, c5, rfl⟩ := mem_enumC4_shape hs
  obtain ⟨c4', c5', heq⟩ := mem_enumC4_shape hs'
  exact hne (mkState_inj heq).2.2.2.1

theorem enumC2_nodup (tm : TmState) (c1 : Combo) : (enumC2 tm c1).Nodup := by
  rw [enumC2, List.nodup_flatMap]
  refine ⟨fun c2 _ => enumC3_nodup tm c1 c2, ?_⟩
  refine (combos_nodup tm).imp ?_
  intro c2 c2' hne s hs hs'
  obtain ⟨c3, c4, c5, rfl⟩ := mem_enumC3_shape hs
  obtain ⟨c3', c4', c5', heq⟩ := mem_enumC3_shape hs'
  exact hne (mkState_inj heq).2.2.1

theorem branchEnum_nodup (tm : TmState) : (branchEnum tm).Nodup := by
  rw [branchEnum, List.nodup_flatMap]
  refine ⟨fun c1 _ => enumC2_nodup tm c1, ?_⟩
  refine (combos_nodup tm).imp ?_
  intro c1 c1' hne s hs hs'
  obtain ⟨c2, c3, c4, c5, rfl⟩ := mem_enumC2_shape hs
  obtain ⟨c2', c3', c4', c5', heq⟩ := mem_enumC2_shape hs'
  exact hne (mkState_inj heq).2.1

theorem enum2pc_nodup : enum2pc.Nodup := by
  rw [enum2pc]
  refine List.Nodup.append (List.Nodup.append (branchEnum_nodup _)
    (branchEnum_nodup _) ?_) (branchEnum_nodup _) ?_
  · intro s hs hs'
    have h1 := branch_tm hs
    have h2 := branch_tm hs'
    rw [h1] at h2
    exact TmState.noConfusion h2
  · intro s hs hs'
    have h2 := branch_tm hs'
    rcases List.mem_append.1 hs with h | h <;>
      · have h1 := branch_tm h
        rw [h1] at h2
        exact TmState.noConfusion h2

theorem length_flatMap_const {α β : Type} (l : List α) (f : α → List β) (k : Nat)
    (h : ∀ x ∈ l, (f x).length = k) : (l.flatMap f).length = l.length * k := by
  induction l with
  | nil => simp
  | cons a t ih =>
    rw [List.flatMap_cons, List.length_append, h a (List.mem_cons_self _ _),
      ih (fun x hx => h x (List.mem_cons_of_mem _ hx)), List.length_cons,
      Nat.succ_mul]
    omega

theorem branchEnum_length (tm : TmState) :
    (branchEnum tm).length = (combosFor tm).length ^ 5 := by
  have h5 : ∀ c1 c2 c3 c4, (enumC5 tm c1 c2 c3 c4).length = (combosFor tm).length :=
    fun c1 c2 c3 c4 => List.length_map _ _
  have h4 : ∀ c1 c2 c3, (enumC4 tm c1 c2 c3).length =
      (combosFor tm).length * (combosFor tm).length := fun c1 c2 c3 =>
    length_flatMap_const _ _ _ (fun c4 _ => h5 c1 c2 c3 c4)
  have h3 : ∀ c1 c2, (enumC3 tm c1 c2).length =
      (combosFor tm).length * ((combosFor tm).length * (combosFor tm).length) :=
    fun c1 c2 => length_flatMap_const _ _ _ (fun c3 _ => h4 c1 c2 c3)
  have h2 : ∀ c1, (enumC2 tm c1).length = (combosFor tm).length *
      ((combosFor tm).length * ((combosFor tm).length * (combosFor tm).length)) :=
    fun c1 => length_flatMap_const _ _ _ (fun c2 _ => h3 c1 c2)
  have h1 := length_flatMap_const (combosFor tm) (fun c1 => enumC2 tm c1) _
    (fun c1 _ => h2 c1)
  rw [branchEnum, h1]
  ring

theorem enum2pc_length : enum2pc.length = 8832 := by
  have hi : (combosFor TmState.Init).length = 4 := rfl
  have ha : (combosFor TmState.Aborted).length = 6 := rfl
  have hc : (combosFor TmState.Committed).length = 2 := rfl
  rw [enum2pc, List.length_append, List.length_append, branchEnum_length,
    branchEnum_length, branchEnum_length, hi, ha, hc]
  norm_num

theorem comboOK_of_mem {tm : TmState} {c : Combo} (h : c ∈ combosFor tm) :
    (c.2.2 = true → c.2.1 = true) ∧
    (c.1 = RmState.Working → c.2.1 = false) ∧
    (c.1 = RmState.Prepared → c.2.1 = true) ∧
    (c.1 = RmState.Committed → tm = TmState.Committed) ∧
    (c.1 = RmState.Aborted → c.2.1 = true → tm = TmState.Aborted) ∧
    (tm = TmState.Committed → c.2.1 = true ∧ c.2.2 = true) := by
  cases tm <;> fin_cases h <;> simp

theorem mkState_prep1 (tm : TmState) (c1 c2 c3 c4 c5 : Combo) :
    (Message.Prepared 1 ∈ (mkState tm c1 c2 c3 c4 c5).msgs) ↔ c1.2.1 = true := by
  rw [mkState_mem_msgs]
  simp

theorem mkState_prep2 (tm : TmState) (c1 c2 c3 c4 c5 : Combo) :
    (Message.Prepared 2 ∈ (mkState tm c1 c2 c3 c4 c5).msgs) ↔ c2.2.1 = true := by
  rw [mkState_mem_msgs]
  simp

theorem mkState_prep3 (tm : TmState) (c1 c2 c3 c4 c5 : Combo) :
    (Message.Prepared 3 ∈ (mkState tm c1 c2 c3 c4 c5).msgs) ↔ c3.2.1 = true := by
  rw [mkState_mem_msgs]
  simp

theorem mkState_prep4 (tm : TmState) (c1 c2 c3 c4 c5 : Combo) :
    (Message.Prepared 4 ∈ (mkState tm c1 c2 c3 c4 c5).msgs) ↔ c4.2.1 = true := by
  rw [mkState_mem_msgs]
  simp

theorem mkState_prep5 (tm : TmState) (c1 c2 c3 c4 c5 : Combo) :
    (Message.Prepared 5 ∈ (mkState tm c1 c2 c3 c4 c5).msgs) ↔ c5.2.1 = true := by
  rw [mkState_mem_msgs]
  simp

theorem mkState_commit_iff (tm : TmState) (c1 c2 c3 c4 c5 : Combo) :
    (Message.Commit ∈ (mkState tm c1 c2 c3 c4 c5).msgs) ↔ tm = TmState.Committed := by
  rw [mkState_mem_msgs]
  simp

theorem mkState_abort_iff (tm : TmState) (c1 c2 c3 c4 c5 : Combo) :
    (Message.Abort ∈ (mkState tm c1 c2 c3 c4 c5).msgs) ↔ tm = TmState.Aborted := by
  rw [mkState_mem_msgs]
  simp

theorem inv_mk_aux {tm : TmState} {c : Combo} (hc : c ∈ combosFor tm)
    {s : TwoPhaseState Nat} {i : Nat}
    (hget : mapGet s.rm_state i = some c.1)
    (hprep_iff : (Message.Prepared i ∈ s.msgs) ↔ c.2.1 = true)
    (hcomm : tm = TmState.Committed → Message.Commit ∈ s.msgs)
    (habrt : tm = TmState.Aborted → Message.Abort ∈ s.msgs) :
    (mapGet s.rm_state i = some RmState.Prepared → Message.Prepared i ∈ s.msgs) ∧
    (mapGet s.rm_state i = some RmState.Committed → Message.Commit ∈ s.msgs) ∧
    (mapGet s.rm_state i = some RmState.Aborted → Message.Prepared i ∈ s.msgs →
      Message.Abort ∈ s.msgs) := by
  have o := comboOK_of_mem hc
  refine ⟨?_, ?_, ?_⟩
  · intro h
    rw [hget, Option.some.injEq] at h
    exact hprep_iff.2 (o.2.2.1 h)
  · intro h
    rw [hget, Option.some.injEq] at h
    exact hcomm (o.2.2.2.1 h)
  · intro h hprep
    rw [hget, Option.some.injEq] at h
    exact habrt (o.2.2.2.2.1 h (hprep_iff.1 hprep))

theorem inv_mkState {tm : TmState} {c1 c2 c3 c4 c5 : Combo}
    (h1 : c1 ∈ combosFor tm) (h2 : c2 ∈ combosFor tm) (h3 : c3 ∈ combosFor tm)
    (h4 : c4 ∈ combosFor tm) (h5 : c5 ∈ combosFor tm) :
    Inv sys5 (mkState tm c1 c2 c3 c4 c5) := by
  have o1 := comboOK_of_mem h1
  have o2 := comboOK_of_mem h2
  have o3 := comboOK_of_mem h3
  have o4 := comboOK_of_mem h4
  have o5 := comboOK_of_mem h5
  refine ⟨rfl, ?_, ?_, ?_, ?_, ?_⟩
  · intro x hx
    rw [mkState_mem_tp] at hx
    rcases hx with ⟨hb, rfl⟩ | ⟨hb, rfl⟩ | ⟨hb, rfl⟩ | ⟨hb, rfl⟩ | ⟨hb, rfl⟩
    · exact ⟨by decide, (mkState_prep1 _ _ _ _ _ _).2 (o1.1 hb)⟩
    · exact ⟨by decide, (mkState_prep2 _ _ _ _ _ _).2 (o2.1 hb)⟩
    · exact ⟨by decide, (mkState_prep3 _ _ _ _ _ _).2 (o3.1 hb)⟩
    · exact ⟨by decide, (mkState_prep4 _ _ _ _ _ _).2 (o4.1 hb)⟩
    · exact ⟨by decide, (mkState_prep5 _ _ _ _ _ _).2 (o5.1 hb)⟩
  · intro m hm
    rw [mkState_mem_msgs] at hm
    rcases hm with ⟨hb, rfl⟩ | ⟨hb, rfl⟩ | ⟨hb, rfl⟩ | ⟨hb, rfl⟩ | ⟨hb, rfl⟩ |
      ⟨htm, rfl⟩ | ⟨htm, rfl⟩
    · refine ⟨by decide, ?_⟩
      rw [mkState_get1, Ne, Option.some.injEq]
      intro hW
      rw [o1.2.1 hW] at hb
      exact Bool.noConfusion hb
    · refine ⟨by decide, ?_⟩
      rw [mkState_get2, Ne, Option.some.injEq]
      intro hW
      rw [o2.2.1 hW] at hb
      exact Bool.noConfusion hb
    · refine ⟨by decide, ?_⟩
      rw [mkState_get3, Ne, Option.some.injEq]
      intro hW
      rw [o3.2.1 hW] at hb
      exact Bool.noConfusion hb
    · refine ⟨by decide, ?_⟩
      rw [mkState_get4, Ne, Option.some.injEq]
      intro hW
      rw [o4.2.1 hW] at hb
      exact Bool.noConfusion hb
    · refine ⟨by decide, ?_⟩
      rw [mkState_get5, Ne, Option.some.injEq]
      intro hW
      rw [o5.2.1 hW] at hb
      exact Bool.noConfusion hb
    · exact htm
    · exact htm
  · intro htm
    have htm' : tm = TmState.Committed := htm
    refine ⟨(mkState_commit_iff _ _ _ _ _ _).2 htm', ?_⟩
    apply Finset.ext
    intro x
    rw [mkState_mem_tp]
    have e1 := (o1.2.2.2.2.2 htm').2
    have e2 := (o2.2.2.2.2.2 htm').2
    have e3 := (o3.2.2.2.2.2 htm').2
    have e4 := (o4.2.2.2.2.2 htm').2
    have e5 := (o5.2.2.2.2.2 htm').2
    simp only [e1, e2, e3, e4, e5, true_and]
    simp [sys5]
  · intro htm
    exact (mkState_abort_iff _ _ _ _ _ _).2 htm
  · intro x hx
    have hx' : x = 1 ∨ x = 2 ∨ x = 3 ∨ x = 4 ∨ x = 5 := by simpa [sys5] using hx
    rcases hx' with rfl | rfl | rfl | rfl | rfl
    · exact inv_mk_aux h1 (mkState_get1 tm c1 c2 c3 c4 c5)
        (mkState_prep1 tm c1 c2 c3 c4 c5)
        (fun h => (mkState_commit_iff tm c1 c2 c3 c4 c5).2 h)
        (fun h => (mkState_abort_iff tm c1 c2 c3 c4 c5).2 h)
    · exact inv_mk_aux h2 (mkState_get2 tm c1 c2 c3 c4 c5)
        (mkState_prep2 tm c1 c2 c3 c4 c5)
        (fun h => (mkState_commit_iff tm c1 c2 c3 c4 c5).2 h)
        (fun h => (mkState_abort_iff tm c1 c2 c3 c4 c5).2 h)
    · exact inv_mk_aux h3 (mkState_get3 tm c1 c2 c3 c4 c5)
        (mkState_prep3 tm c1 c2 c3 c4 c5)
        (fun h => (mkState_commit_iff tm c1 c2 c3 c4 c5).2 h)
        (fun h => (mkState_abort_iff tm c1 c2 c3 c4 c5).2 h)
    · exact inv_mk_aux h4 (mkState_get4 tm c1 c2 c3 c4 c5)
        (mkState_prep4 tm c1 c2 c3 c4 c5)
        (fun h => (mkState_commit_iff tm c1 c2 c3 c4 c5).2 h)
        (fun h => (mkState_abort_iff tm c1 c2 c3 c4 c5).2 h)
    · exact inv_mk_aux h5 (mkState_get5 tm c1 c2 c3 c4 c5)
        (mkState_prep5 tm c1 c2 c3 c4 c5)
        (fun h => (mkState_commit_iff tm c1 c2 c3 c4 c5).2 h)
        (fun h => (mkState_abort_iff tm c1 c2 c3 c4 c5).2 h)

theorem inv_of_mem_enum {s : TwoPhaseState Nat} (h : s ∈ enum2pc) :
    Inv sys5 s := by
  rw [enum2pc] at h
  rcases List.mem_append.1 h with h | h
  · rcases List.mem_append.1 h with h | h <;>
      · obtain ⟨c1, hc1, c2, hc2, c3, hc3, c4, hc4, c5, hc5, rfl⟩ :=
          mem_branchEnum_iff.1 h
        exact inv_mkState hc1 hc2 hc3 hc4 hc5
  · obtain ⟨c1, hc1, c2, hc2, c3, hc3, c4, hc4, c5, hc5, rfl⟩ :=
      mem_branchEnum_iff.1 h
    exact inv_mkState hc1 hc2 hc3 hc4 hc5

theorem rm_state_shape {m : List (Nat × RmState)} (h : mapKeys m = [1, 2, 3, 4, 5]) :
    ∃ v1 v2 v3 v4 v5, m = [(1, v1), (2, v2), (3, v3), (4, v4), (5, v5)] := by
  obtain _ | ⟨⟨k1, v1⟩, m⟩ := m
  · exact absurd h (by simp [mapKeys])
  obtain _ | ⟨⟨k2, v2⟩, m⟩ := m
  · exact absurd h (by simp [mapKeys])
  obtain _ | ⟨⟨k3, v3⟩, m⟩ := m
  · exact absurd h (by simp [mapKeys])
  obtain _ | ⟨⟨k4, v4⟩, m⟩ := m
  · exact absurd h (by simp [mapKeys])
  obtain _ | ⟨⟨k5, v5⟩, m⟩ := m
  · exact absurd h (by simp [mapKeys])
  obtain _ | ⟨⟨k6, v6⟩, m⟩ := m
  · simp only [mapKeys, List.map_cons, List.map_nil, List.cons.injEq, and_true] at h
    obtain ⟨rfl, rfl, rfl, rfl, rfl⟩ := h
    exact ⟨v1, v2, v3, v4, v5, rfl⟩
  · exact absurd h (by simp [mapKeys])

theorem combo_mem {tm : TmState} {v : RmState} {pb tb : Bool}
    (htb : tb = true → pb = true)
    (hW : v = RmState.Working → pb = false)
    (hP : v = RmState.Prepared → pb = true)
    (hCv : v = RmState.Committed → tm = TmState.Committed)
    (hA : v = RmState.Aborted → pb = true → tm = TmState.Aborted)
    (hC : tm = TmState.Committed →
      pb = true ∧ tb = true ∧ v ≠ RmState.Working ∧ v ≠ RmState.Aborted) :
    (v, pb, tb) ∈ combosFor tm := by
  cases tm <;> cases v <;> cases pb <;> cases tb <;>
    first
      | decide
      | exact absurd (hW rfl) (by decide)
      | exact absurd (hP rfl) (by decide)
      | exact absurd (hCv rfl) (by decide)
      | exact absurd (hA rfl rfl) (by decide)
      | exact absurd (htb rfl) (by decide)
      | exact absurd ((hC rfl).1) (by decide)
      | exact absurd ((hC rfl).2.1) (by decide)

theorem combo_mem_of_inv {s : TwoPhaseState Nat} (hinv : Inv sys5 s) {i : Nat}
    (hi : i ∈ sys5.rms) {v : RmState} (hget : mapGet s.rm_state i = some v) :
    (v, decide (Message.Prepared i ∈ s.msgs), decide (i ∈ s.tm_prepared)) ∈
      combosFor s.tm_state := by
  obtain ⟨hkeys, htp, hmsg, hcommit, habort, hrm⟩ := hinv
  apply combo_mem
  · intro h
    exact decide_eq_true ((htp i (of_decide_eq_true h)).2)
  · intro hv
    apply decide_eq_false
    intro hmem
    exact (hmsg _ hmem).2 (by rw [hget, hv])
  · intro hv
    exact decide_eq_true ((hrm i hi).1 (by rw [hget, hv]))
  · intro hv
    exact hmsg _ ((hrm i hi).2.1 (by rw [hget, hv]))
  · intro hv hpb
    exact hmsg _ ((hrm i hi).2.2 (by rw [hget, hv]) (of_decide_eq_true hpb))
  · intro htm
    have htpf : i ∈ s.tm_prepared := by
      rw [(hcommit htm).2]
      exact List.mem_toFinset.2 hi
    have hpb : Message.Prepared i ∈ s.msgs := (htp i htpf).2
    refine ⟨decide_eq_true hpb, decide_eq_true htpf, ?_, ?_⟩
    · intro hv
      exact (hmsg _ hpb).2 (by rw [hget, hv])
    · intro hv
      have hab : s.tm_state = TmState.Aborted :=
        hmsg _ ((hrm i hi).2.2 (by rw [hget, hv]) hpb)
      rw [htm] at hab
      exact TmState.noConfusion hab

theorem state_eq_mk {s : TwoPhaseState Nat} (hinv : Inv sys5 s)
    {v1 v2 v3 v4 v5 : RmState}
    (hrs : s.rm_state = [(1, v1), (2, v2), (3, v3), (4, v4), (5, v5)]) :
    s = mkState s.tm_state
      (v1, decide (Message.Prepared 1 ∈ s.msgs), decide (1 ∈ s.tm_prepared))
      (v2, decide (Message.Prepared 2 ∈ s.msgs), decide (2 ∈ s.tm_prepared))
      (v3, decide (Message.Prepared 3 ∈ s.msgs), decide (3 ∈ s.tm_prepared))
      (v4, decide (Message.Prepared 4 ∈ s.msgs), decide (4 ∈ s.tm_prepared))
      (v5, decide (Message.Prepared 5 ∈ s.msgs), decide (5 ∈ s.tm_prepared)) := by
  obtain ⟨hkeys, htp, hmsg, hcommit, habort, hrm⟩ := hinv
  ext1
  · rw [hrs, mkState_rm_state]
  · rfl
  · apply Finset.ext
    intro x
    rw [mkState_mem_tp]
    simp only [decide_eq_true_eq]
    constructor
    · intro hx
      have hx5 : x = 1 ∨ x = 2 ∨ x = 3 ∨ x = 4 ∨ x = 5 := by
        simpa [sys5] using (htp x hx).1
      rcases hx5 with rfl | rfl | rfl | rfl | rfl <;> tauto
    · rintro (⟨h, rfl⟩ | ⟨h, rfl⟩ | ⟨h, rfl⟩ | ⟨h, rfl⟩ | ⟨h, rfl⟩) <;> exact h
  · apply Finset.ext
    intro m
    rw [mkState_mem_msgs]
    simp only [decide_eq_true_eq]
    constructor
    · intro hm
      have hOK := hmsg _ hm
      cases m with
      | Prepared x =>
        have hx5 : x = 1 ∨ x = 2 ∨ x = 3 ∨ x = 4 ∨ x = 5 := by
          simpa [sys5] using hOK.1
        rcases hx5 with rfl | rfl | rfl | rfl | rfl
        · exact Or.inl ⟨hm, rfl⟩
        · exact Or.inr (Or.inl ⟨hm, rfl⟩)
        · exact Or.inr (Or.inr (Or.inl ⟨hm, rfl⟩))
        · exact Or.inr (Or.inr (Or.inr (Or.inl ⟨hm, rfl⟩)))
        · exact Or.inr (Or.inr (Or.inr (Or.inr (Or.inl ⟨hm, rfl⟩))))
      | Commit =>
        exact Or.inr (Or.inr (Or.inr (Or.inr (Or.inr (Or.inl ⟨hOK, rfl⟩)))))
      | Abort =>
        exact Or.inr (Or.inr (Or.inr (Or.inr (Or.inr (Or.inr ⟨hOK, rfl⟩)))))
    · rintro (⟨h, rfl⟩ | ⟨h, rfl⟩ | ⟨h, rfl⟩ | ⟨h, rfl⟩ | ⟨h, rfl⟩ |
        ⟨htm, rfl⟩ | ⟨htm, rfl⟩)
      · exact h
      · exact h
      · exact h
      · exact h
      · exact h
      · exact (hcommit htm).1
      · exact habort htm

theorem mem_enum_of_inv {s : TwoPhaseState Nat} (hinv : Inv sys5 s) :
    s ∈ enum2pc := by
  obtain ⟨v1, v2, v3, v4, v5, hrs⟩ := rm_state_shape hinv.1
  have hg1 : mapGet s.rm_state 1 = some v1 := by rw [hrs]; simp [mapGet]
  have hg2 : mapGet s.rm_state 2 = some v2 := by rw [hrs]; simp [mapGet]
  have hg3 : mapGet s.rm_state 3 = some v3 := by rw [hrs]; simp [mapGet]
  have hg4 : mapGet s.rm_state 4 = some v4 := by rw [hrs]; simp [mapGet]
  have hg5 : mapGet s.rm_state 5 = some v5 := by rw [hrs]; simp [mapGet]
  have hm1 := combo_mem_of_inv hinv (by decide) hg1
  have hm2 := combo_mem_of_inv hinv (by decide) hg2
  have hm3 := combo_mem_of_inv hinv (by decide) hg3
  have hm4 := combo_mem_of_inv hinv (by decide) hg4
  have hm5 := combo_mem_of_inv hinv (by decide) hg5
  have heq := state_eq_mk hinv hrs
  have hb : s ∈ branchEnum s.tm_state := by
    rw [heq]
    exact mem_branchEnum_iff.2 ⟨_, hm1, _, hm2, _, hm3, _, hm4, _, hm5, rfl⟩
  rw [enum2pc]
  cases htm : s.tm_state with
  | Init =>
    rw [htm] at hb
    exact List.mem_append.2 (Or.inl (List.mem_append.2 (Or.inl hb)))
  | Aborted =>
    rw [htm] at hb
    exact List.mem_append.2 (Or.inl (List.mem_append.2 (Or.inr hb)))
  | Committed =>
    rw [htm] at hb
    exact List.mem_append.2 (Or.inr hb)

/-- Reachability in the five-RM system is exactly membership in `enum2pc`. -/
theorem reachable_iff_mem_enum (s : TwoPhaseState Nat) :
    Reachable sys5 s ↔ s ∈ enum2pc := by
  have hrms : sys5.rms.Pairwise (· < ·) := by decide
  rw [reachable_iff_inv hrms]
  exact ⟨mem_enum_of_inv, inv_of_mem_enum⟩

/-- Claim C5: the five-RM system reaches exactly the 8832 distinct states
of `enum2pc`, and the safety invariant holds on every one of them. -/
theorem five_rm_state_space :
    (∀ s, Reachable sys5 s ↔ s ∈ enum2pc) ∧
    enum2pc.Nodup ∧ enum2pc.length = 8832 ∧
    (∀ s ∈ enum2pc, is_consistent sys5 s = true) :=
  ⟨reachable_iff_mem_enum, enum2pc_nodup, enum2pc_length,
    fun _ hs => inv_consistent (inv_of_mem_enum hs)⟩

theorem five_rm_state_space_witness :
    sys5.initState ∈ enum2pc ∧ is_consistent sys5 sys5.initState = true :=
  ⟨(five_rm_state_space.1 sys5.initState).1 Relation.ReflTransGen.refl,
   five_rm_state_space.2.2.2 sys5.initState
     ((five_rm_state_space.1 sys5.initState).1 Relation.ReflTransGen.refl)⟩

/-- Claim C3: `next` yields exactly the successors of the enabled rule
instances of the spec's rule table — none omitted, none added. -/
theorem next_complete (sys : TwoPhaseSys R) (s s' : TwoPhaseState R) :
    Step sys s s' ↔ SpecStep sys s s' := by
  rw [step_iff, SpecStep]
  constructor
  · rintro (h | h | ⟨rm, hrm, h | h | h | h | h⟩)
    · exact Or.inr (Or.inr (Or.inr (Or.inl h)))
    · exact Or.inr (Or.inr (Or.inr (Or.inr (Or.inl h))))
    · exact Or.inr (Or.inr (Or.inl ⟨rm, hrm, h⟩))
    · exact Or.inl ⟨rm, hrm, h⟩
    · exact Or.inr (Or.inl ⟨rm, hrm, h⟩)
    · exact Or.inr (Or.inr (Or.inr (Or.inr (Or.inr (Or.inl ⟨rm, hrm, h⟩)))))
    · exact Or.inr (Or.inr (Or.inr (Or.inr (Or.inr (Or.inr ⟨rm, hrm, h⟩)))))
  · rintro (⟨rm, hrm, h⟩ | ⟨rm, hrm, h⟩ | ⟨rm, hrm, h⟩ | h | h |
      ⟨rm, hrm, h⟩ | ⟨rm, hrm, h⟩)
    · exact Or.inr (Or.inr ⟨rm, hrm, Or.inr (Or.inl h)⟩)
    · exact Or.inr (Or.inr ⟨rm, hrm, Or.inr (Or.inr (Or.inl h))⟩)
    · exact Or.inr (Or.inr ⟨rm, hrm, Or.inl h⟩)
    · exact Or.inl h
    · exact Or.inr (Or.inl h)
    · exact Or.inr (Or.inr ⟨rm, hrm, Or.inr (Or.inr (Or.inr (Or.inl h)))⟩)
    · exact Or.inr (Or.inr ⟨rm, hrm, Or.inr (Or.inr (Or.inr (Or.inr h)))⟩)

/-! ### The register actor harness (`src/actor/register.rs`) -/

theorem mem_dedupAdj {α : Type} [DecidableEq α] (l : List α) (x : α) :
    x ∈ dedupAdj l ↔ x ∈ l := by
  induction l with
  | nil => simp [dedupAdj]
  | cons a t ih =>
    cases t with
    | nil => simp [dedupAdj]
    | cons b t' =>
      by_cases hab : a = b
      · subst hab
        simp [dedupAdj, ih]
      · simp only [dedupAdj, if_neg hab, List.mem_cons, ih]

theorem dedupAdj_sorted_lt {α : Type} [LinearOrder α] :
    ∀ {l : List α}, l.Sorted (· ≤ ·) → (dedupAdj l).Sorted (· < ·) := by
  intro l
  induction l with
  | nil => intro _; simp [dedupAdj]
  | cons a t ih =>
    intro h
    cases t with
    | nil => simp [dedupAdj]
    | cons b t' =>
      rw [List.sorted_cons] at h
      by_cases hab : a = b
      · subst hab
        simpa [dedupAdj] using ih h.2
      · simp only [dedupAdj, if_neg hab]
        rw [List.sorted_cons]
        refine ⟨?_, ih h.2⟩
        intro x hx
        rw [mem_dedupAdj] at hx
        rcases List.mem_cons.1 hx with rfl | hx
        · exact lt_of_le_of_ne (h.1 _ (List.mem_cons_self _ _)) hab
        · have hbx : b ≤ x := (List.sorted_cons.1 h.2).1 x hx
          exact lt_of_lt_of_le
            (lt_of_le_of_ne (h.1 b (List.mem_cons_self _ _)) hab) hbx

theorem respond_filter_eq {Value SMsg : Type} (m : RegisterMsg Value SMsg)
    (x : Value) :
    ((match m with
      | RegisterMsg.Respond value => some value
      | _ => none) = some x) ↔ m = RegisterMsg.Respond x := by
  cases m <;> simp

/-- Claim C6: a Client's `start` emits `Put(v)` then `Get` to each of its
two servers in order and yields the Client marker state; `advance` of a
Client configuration never yields a transition. -/
theorem register_client_spec {Id Value SMsg SState : Type}
    (s1 s2 : Id) (v : Value) :
    ((RegisterCfg.Client [s1, s2] v : RegisterCfg Id Value SMsg SState).start.outputs =
      [(s1, RegisterMsg.Put v), (s1, RegisterMsg.Get),
       (s2, RegisterMsg.Put v), (s2, RegisterMsg.Get)]) ∧
    ((RegisterCfg.Client [s1, s2] v : RegisterCfg Id Value SMsg SState).start.state =
      RegisterState.Client) ∧
    (∀ (st : RegisterState SState) (input : ActorInput Id (RegisterMsg Value SMsg)),
      (RegisterCfg.Client [s1, s2] v : RegisterCfg Id Value SMsg SState).advance
        st input = none) := by
  refine ⟨rfl, rfl, ?_⟩
  intro st input
  cases st <;> rfl

/-- Claim C8: the Server wrapper is pure delegation — `start` and `advance`
forward to the wrapped configuration's operations unchanged, only re-tagging
the state with the Server variant. -/
theorem register_server_delegation {Id Value SMsg SState : Type}
    (server_cfg : ActorDef Id (RegisterMsg Value SMsg) SState) :
    ((RegisterCfg.Server server_cfg : RegisterCfg Id Value SMsg SState).start.action =
        server_cfg.start.action ∧
      (RegisterCfg.Server server_cfg : RegisterCfg Id Value SMsg SState).start.state =
        RegisterState.Server server_cfg.start.state ∧
      (RegisterCfg.Server server_cfg : RegisterCfg Id Value SMsg SState).start.outputs =
        server_cfg.start.outputs) ∧
    (∀ (s : SState) (input : ActorInput Id (RegisterMsg Value SMsg)),
      (RegisterCfg.Server server_cfg : RegisterCfg Id Value SMsg SState).advance
          (RegisterState.Server s) input =
        (server_cfg.advance s input).map (fun r =>
          { action := r.action, state := RegisterState.Server r.state,
            outputs := r.outputs })) := by
  refine ⟨⟨rfl, rfl, rfl⟩, ?_⟩
  intro s input
  cases h : server_cfg.advance s input <;> simp [RegisterCfg.advance, h]

/-- Claim C7: `response_values` returns exactly the distinct values of the
snapshot's `Respond` envelopes, sorted ascending; on a snapshot holding
`Respond(3)`, `Respond(1)`, `Respond(3)` and other messages it returns
`[1, 3]`. -/
theorem response_values_spec :
    (∀ (Value SMsg SState : Type) [LinearOrder Value]
      (snap : ActorSystemSnapshot (RegisterMsg Value SMsg) (RegisterState SState)),
      (response_values snap).Sorted (· ≤ ·) ∧ (response_values snap).Nodup ∧
      (∀ v, v ∈ response_values snap ↔
        ∃ env ∈ snap.network, env.msg = RegisterMsg.Respond v)) ∧
    response_values
      (⟨[⟨RegisterMsg.Respond 3⟩, ⟨RegisterMsg.Put 0⟩, ⟨RegisterMsg.Respond 1⟩,
         ⟨RegisterMsg.Get⟩, ⟨RegisterMsg.Respond 3⟩, ⟨RegisterMsg.Internal 7⟩]⟩ :
        ActorSystemSnapshot (RegisterMsg Nat Nat) (RegisterState Unit)) = [1, 3] := by
  constructor
  · intro Value SMsg SState _ snap
    have hsorted : (List.insertionSort (· ≤ ·) (snap.network.filterMap (fun env =>
        match env.msg with
        | RegisterMsg.Respond value => some value
        | _ => none))).Sorted (· ≤ ·) := List.sorted_insertionSort _ _
    have hlt := dedupAdj_sorted_lt hsorted
    refine ⟨hlt.imp (fun h => le_of_lt h), hlt.imp (fun h => ne_of_lt h), ?_⟩
    intro v
    show v ∈ dedupAdj _ ↔ _
    rw [mem_dedupAdj, (List.perm_insertionSort _ _).mem_iff, List.mem_filterMap]
    constructor
    · rintro ⟨env, henv, heq⟩
      exact ⟨env, henv, (respond_filter_eq env.msg v).1 heq⟩
    · rintro ⟨env, henv, heq⟩
      exact ⟨env, henv, (respond_filter_eq env.msg v).2 heq⟩
  · decide

theorem consistency_invariant_witness :
    is_consistent sys5 sys5.initState = true :=
  consistency_invariant sys5 (by decide) sys5.initState Relation.ReflTransGen.refl

theorem no_commit_and_abort_witness :
    ¬ (Message.Commit ∈ sys5.initState.msgs ∧
       Message.Abort ∈ sys5.initState.msgs) :=
  no_commit_and_abort sys5 (by decide) sys5.initState Relation.ReflTransGen.refl

theorem step_monotone_witness :
    sys5.initState.msgs ⊆ (TwoPhaseState.mk
        [(1, RmState.Working), (2, RmState.Working), (3, RmState.Working),
         (4, RmState.Working), (5, RmState.Working)]
        TmState.Aborted ∅ {Message.Abort}).msgs ∧
    TmForward sys5.initState.tm_state (TwoPhaseState.mk
        [(1, RmState.Working), (2, RmState.Working), (3, RmState.Working),
         (4, RmState.Working), (5, RmState.Working)]
        TmState.Aborted ∅ {Message.Abort}).tm_state ∧
    (∀ rm ∈ sys5.rms, ∀ v v', mapGet sys5.initState.rm_state rm = some v →
      mapGet (TwoPhaseState.mk
        [(1, RmState.Working), (2, RmState.Working), (3, RmState.Working),
         (4, RmState.Working), (5, RmState.Working)]
        TmState.Aborted ∅ {Message.Abort}).rm_state rm = some v' →
      RmForward v v') :=
  step_monotone sys5 (by decide) sys5.initState _ Relation.ReflTransGen.refl
    ⟨"TM chose to abort", by decide⟩

theorem commit_precondition_witness :
    (TwoPhaseSys.mk ([] : List Nat)).initState.tm_state = TmState.Init ∧
    (TwoPhaseSys.mk ([] : List Nat)).initState.tm_prepared =
      (TwoPhaseSys.mk ([] : List Nat)).rms.toFinset ∧
    Message.Commit ∉ (TwoPhaseSys.mk ([] : List Nat)).initState.msgs ∧
    (TwoPhaseState.mk ([] : List (Nat × RmState)) TmState.Committed ∅
        {Message.Commit}).msgs =
      insert Message.Commit (TwoPhaseSys.mk ([] : List Nat)).initState.msgs :=
  commit_precondition ⟨[]⟩ (by decide) _ _ Relation.ReflTransGen.refl
    ⟨"TM was able to commit and has informed RMs", by decide⟩
    (by decide) (by decide)

theorem rm_state_keys_witness :
    mapKeys (TwoPhaseState.mk
        [(1, RmState.Working), (2, RmState.Working), (3, RmState.Working),
         (4, RmState.Working), (5, RmState.Working)]
        TmState.Aborted ∅ {Message.Abort}).rm_state =
      mapKeys sys5.initState.rm_state :=
  (rm_state_keys sys5 (by decide) sys5.initState _).2.2
    Relation.ReflTransGen.refl ⟨"TM chose to abort", by decide⟩

end Stateright
